import Mathlib

/-!
# Verification of the `funs` lexer (and the spec's tree-parser progress guard)

Shallow embedding of the repository's lexical analyser:

* `src/lexer/cursor.rs`  — the `Cursor` type and its operations,
* `src/lexer/token.rs`   — `TokenKind`, classification tables, `Token`, `TokenLocation`,
* `src/lexer/states.rs`  — the state machine (`StateStart`, `StateString`, `StateComment`,
  `StateNumber`, `StateWord`, `StateSymbol`, `StateEOF`, `StateEnd`),
* `src/lexer/mod.rs`     — the driving `Iterator::next` loop.

Rust strings are modelled as `List Char`.  The Rust code indexes the same
counters (`index`, `offset`) both in *characters* (`chars().nth`) and in
*bytes* (`content[i..j]` slicing, `String::remove`, `len()`); the model keeps
characters as the base representation and computes byte positions through
`charBytes` (the UTF-8 width of a character).  A Rust slicing/removal panic is
modelled as `none` / the `.crash` run result.

Unicode character classes (`char::is_alphabetic`, `char::is_alphanumeric`,
`char::is_numeric`) are modelled by their ASCII restrictions
(`Char.isAlpha`, `Char.isAlphanum`, `Char.isDigit`); every universal theorem
below that depends on them is stated for ASCII inputs, and every concrete
non-ASCII input used below (`'£'`, `'¢'`, `'§'`) agrees with the Rust class
on those functions (they are neither alphabetic, alphanumeric, numeric,
whitespace, nor symbol characters in Rust).

`TokenLocation.file_path` is a constant along a run and is omitted.
-/

/-- Model of `TokenLocation` from `src/lexer/token.rs` (without the constant `file_path`):
`line` (0-based), `column_start` (inclusive), `column_end` (exclusive). -/
structure TokenLocation where
  line : Nat
  columnStart : Nat
  columnEnd : Nat
deriving DecidableEq, Repr

/-- Model of `TokenLocation::from(&PathBuf)`: line 0, both columns 0. -/
def TokenLocation.init : TokenLocation := ⟨0, 0, 0⟩

/-- Model of `TokenLocation::advance_line`: `line += 1`, both columns reset to 0. -/
def TokenLocation.advanceLine (l : TokenLocation) : TokenLocation :=
  ⟨l.line + 1, 0, 0⟩

/-- Model of `TokenLocation::advance_column_start`. -/
def TokenLocation.advanceColumnStart (l : TokenLocation) : TokenLocation :=
  ⟨l.line, l.columnStart + 1, l.columnEnd⟩

/-- Model of `TokenLocation::advance_column_end`. -/
def TokenLocation.advanceColumnEnd (l : TokenLocation) : TokenLocation :=
  ⟨l.line, l.columnStart, l.columnEnd + 1⟩

/-- Model of `TokenLocation::set_column_start`. -/
def TokenLocation.setColumnStart (l : TokenLocation) (v : Nat) : TokenLocation :=
  ⟨l.line, v, l.columnEnd⟩

/-- Model of `Literal` from `src/lexer/token.rs`. -/
inductive Literal where
  | int
  | float
  | bool
  | str
deriving DecidableEq, Repr

/-- Model of `Keyword` from `src/lexer/token.rs`. -/
inductive Keyword where
  | unitType
  | intType
  | floatType
  | boolType
  | strType
  | matchKw
  | ifKw
  | thenKw
  | elseKw
  | dataKw
deriving DecidableEq, Repr

/-- Model of `TokenKind` from `src/lexer/token.rs`. -/
inductive TokenKind where
  | tokenLiteral (l : Literal)
  | tokenKeyword (k : Keyword)
  | tokenIdentifier
  | tokenComment
  | tokenSpace
  | tokenTab
  | tokenNewLine
  | tokenDot
  | tokenColon
  | tokenSemicolon
  | tokenAssign
  | tokenSingleQuote
  | tokenDoubleQuote
  | tokenOpenParen
  | tokenCloseParen
  | tokenOpenBrace
  | tokenCloseBrace
  | tokenOpenBracket
  | tokenCloseBracket
  | tokenComma
  | tokenGreater
  | tokenRightArrow
  | tokenRightDoubleArrow
  | tokenPlusPlus
  | tokenUnderscore
  | tokenPipe
  | tokenEOF
  | tokenPlus
  | tokenMinus
  | tokenStar
  | tokenSlash
  | tokenUnknown
deriving DecidableEq, Repr

/-- Rust `char::is_alphabetic`, restricted to ASCII (see the header comment). -/
def isAlphabetic (c : Char) : Bool := c.isAlpha

/-- Rust `char::is_alphanumeric`, restricted to ASCII. -/
def isAlphanumeric (c : Char) : Bool := c.isAlphanum

/-- Rust `char::is_ascii_digit` (exact). -/
def isAsciiDigit (c : Char) : Bool := c.isDigit

/-- Rust `char::is_numeric`, restricted to ASCII (where it coincides with
`is_ascii_digit`); used by `TokenKind::match_number`. -/
def isNumericChar (c : Char) : Bool := c.isDigit

/-- Model of `TokenKind::is_symbol` from `src/lexer/token.rs` (the punctuation table;
it is only ever called on one-character strings, so it is modelled on `Char`).
The table: `: . ; = ' " ( ) [ ] { } _ | , - + * / > \n`. -/
def isSymbolChar (c : Char) : Bool :=
  c = ':' || c = '.' || c = ';' || c = '=' || c = '\'' || c = '"' ||
  c = '(' || c = ')' || c = '[' || c = ']' || c = '{' || c = '}' ||
  c = '_' || c = '|' || c = ',' || c = '-' || c = '+' || c = '*' ||
  c = '/' || c = '>' || c = '\n'

/-- Model of `TokenKind::can_be_followed_by_another_symbol`: the set `- = +`. -/
def canFollowSymbol (c : Char) : Bool :=
  c = '-' || c = '=' || c = '+'

/-- Model of `TokenKind::match_keyword` (each list literal is the corresponding Rust
string constant: `true`, `false`, `unit`, `int`, `float`, `bool`, `str`,
`match`, `if`, `then`, `else`, `data`). -/
def matchKeyword (l : List Char) : Option TokenKind :=
  if l = ['t', 'r', 'u', 'e'] then some (.tokenLiteral .bool)
  else if l = ['f', 'a', 'l', 's', 'e'] then some (.tokenLiteral .bool)
  else if l = ['u', 'n', 'i', 't'] then some (.tokenKeyword .unitType)
  else if l = ['i', 'n', 't'] then some (.tokenKeyword .intType)
  else if l = ['f', 'l', 'o', 'a', 't'] then some (.tokenKeyword .floatType)
  else if l = ['b', 'o', 'o', 'l'] then some (.tokenKeyword .boolType)
  else if l = ['s', 't', 'r'] then some (.tokenKeyword .strType)
  else if l = ['m', 'a', 't', 'c', 'h'] then some (.tokenKeyword .matchKw)
  else if l = ['i', 'f'] then some (.tokenKeyword .ifKw)
  else if l = ['t', 'h', 'e', 'n'] then some (.tokenKeyword .thenKw)
  else if l = ['e', 'l', 's', 'e'] then some (.tokenKeyword .elseKw)
  else if l = ['d', 'a', 't', 'a'] then some (.tokenKeyword .dataKw)
  else none

/-- Model of `TokenKind::match_number`: all characters numeric → `Int`; otherwise if the
lexeme contains `.` → `Float`; otherwise no match.  (Note: the empty lexeme
satisfies the `all` vacuously and classifies as `Int`, as in the source.) -/
def matchNumber (l : List Char) : Option TokenKind :=
  if l.all isNumericChar then some (.tokenLiteral .int)
  else if l.contains '.' then some (.tokenLiteral .float)
  else none

/-- Model of `TokenKind::match_separator` (each list literal is the corresponding Rust
constant: `. : ; = ' " ( ) { } [ ] _ , + - * / -> => ++ |`). -/
def matchSeparator (l : List Char) : Option TokenKind :=
  if l = ['.'] then some .tokenDot
  else if l = [':'] then some .tokenColon
  else if l = [';'] then some .tokenSemicolon
  else if l = ['='] then some .tokenAssign
  else if l = ['\''] then some .tokenSingleQuote
  else if l = ['"'] then some .tokenDoubleQuote
  else if l = ['('] then some .tokenOpenParen
  else if l = [')'] then some .tokenCloseParen
  else if l = ['{'] then some .tokenOpenBrace
  else if l = ['}'] then some .tokenCloseBrace
  else if l = ['['] then some .tokenOpenBracket
  else if l = [']'] then some .tokenCloseBracket
  else if l = ['_'] then some .tokenUnderscore
  else if l = [','] then some .tokenComma
  else if l = ['+'] then some .tokenPlus
  else if l = ['-'] then some .tokenMinus
  else if l = ['*'] then some .tokenStar
  else if l = ['/'] then some .tokenSlash
  else if l = ['-', '>'] then some .tokenRightArrow
  else if l = ['=', '>'] then some .tokenRightDoubleArrow
  else if l = ['+', '+'] then some .tokenPlusPlus
  else if l = ['|'] then some .tokenPipe
  else none

/-- Model of `impl From<&String> for TokenKind`: the single whitespace lexemes first,
then keyword table, then separator table, then the numeric test, falling back
to identifier. -/
def tokenKindFrom (l : List Char) : TokenKind :=
  if l = ['\n'] then .tokenNewLine
  else if l = ['\t'] then .tokenTab
  else if l = [' '] then .tokenSpace
  else
    match matchKeyword l with
    | some k => k
    | none =>
      match matchSeparator l with
      | some k => k
      | none =>
        match matchNumber l with
        | some k => k
        | none => .tokenIdentifier

/-- Model of `Token` from `src/lexer/token.rs` (lexeme as a character list). -/
structure Token where
  kind : TokenKind
  lexeme : List Char
  location : TokenLocation
deriving DecidableEq, Repr

/-- The UTF-8 byte width of a character (what Rust's byte-based `len()`,
slicing and `String::remove` count). -/
def charBytes (c : Char) : Nat :=
  if c.toNat < 128 then 1
  else if c.toNat < 2048 then 2
  else if c.toNat < 65536 then 3
  else 4

/-- The byte length of a string, Rust `str::len`. -/
def byteLen (l : List Char) : Nat := (l.map charBytes).sum

/-- Drop the first `n` bytes of a string; `none` when `n` overruns the string
or does not fall on a character boundary (a Rust slicing panic). -/
def dropBytes (l : List Char) (n : Nat) : Option (List Char) :=
  match l, n with
  | l, 0 => some l
  | [], _ + 1 => none
  | c :: rest, n + 1 =>
    if charBytes c ≤ n + 1 then dropBytes rest (n + 1 - charBytes c) else none

/-- Take the first `n` bytes of a string; `none` when `n` overruns the string
or does not fall on a character boundary (a Rust slicing panic). -/
def takeBytes (l : List Char) (n : Nat) : Option (List Char) :=
  match l, n with
  | _, 0 => some []
  | [], _ + 1 => none
  | c :: rest, n + 1 =>
    if charBytes c ≤ n + 1 then
      (takeBytes rest (n + 1 - charBytes c)).map (c :: ·)
    else none

/-- Rust `&content[i..j]` (byte indices): `none` models the slicing panic
(`i > j`, out of range, or a boundary inside a multi-byte character). -/
def sliceBytes (l : List Char) (i j : Nat) : Option (List Char) :=
  if i ≤ j then (dropBytes l i).bind (fun rest => takeBytes rest (j - i))
  else none

/-- Rust `String::remove(n)` (byte index): removes the character starting at
byte `n`; `none` models the panic (out of range or not a boundary). -/
def removeAtByte (l : List Char) (n : Nat) : Option (List Char) :=
  match l, n with
  | [], _ => none
  | _ :: rest, 0 => some rest
  | c :: rest, n + 1 =>
    if charBytes c ≤ n + 1 then (removeAtByte rest (n + 1 - charBytes c)).map (c :: ·)
    else none

/-- Model of `Cursor` from `src/lexer/cursor.rs`: the (mutable) source content, the
human-readable location, the committed lexeme start `index` and the lookahead
`offset`. -/
structure Cursor where
  content : List Char
  location : TokenLocation
  index : Nat
  offset : Nat
deriving DecidableEq, Repr

/-- Model of `Cursor::is_eof`: `index >= content.len()` — note the *byte* length. -/
def Cursor.isEof (c : Cursor) : Bool := byteLen c.content ≤ c.index

/-- Model of `Cursor::peek`: `None` at EOF, else `content.chars().nth(offset)` — note
the *character* position. -/
def Cursor.peek (c : Cursor) : Option Char :=
  if c.isEof then none else c.content[c.offset]?

/-- Model of `Cursor::consume`: no-op at EOF; otherwise advance both columns and both
counters. -/
def Cursor.consume (c : Cursor) : Cursor :=
  if c.isEof then c
  else
    { c with
      location := (c.location.advanceColumnStart).advanceColumnEnd
      index := c.index + 1
      offset := c.offset + 1 }

/-- Model of `Cursor::advance_offset`: no-op at EOF; otherwise advance `column_end` and
`offset` only. -/
def Cursor.advanceOffset (c : Cursor) : Cursor :=
  if c.isEof then c
  else
    { c with
      location := c.location.advanceColumnEnd
      offset := c.offset + 1 }

/-- Model of `Cursor::align`: `column_start := column_end`, `index := offset`. -/
def Cursor.align (c : Cursor) : Cursor :=
  { c with
    location := c.location.setColumnStart c.location.columnEnd
    index := c.offset }

/-- Model of `Cursor::new_line`: no-op at EOF; otherwise advance the line (columns to
0), `index := offset`, then `offset += 1`. -/
def Cursor.newLine (c : Cursor) : Cursor :=
  if c.isEof then c
  else
    { c with
      location := c.location.advanceLine
      index := c.offset
      offset := c.offset + 1 }

/-- Model of `Cursor::remove_carriage_return`: delete the character at byte position
`offset` from the content in place; `none` models the `String::remove` panic. -/
def Cursor.removeCarriageReturn (c : Cursor) : Option Cursor :=
  (removeAtByte c.content c.offset).map (fun l => { c with content := l })

/-- Model of `Cursor::from(&Source)`. -/
def mkCursor (cs : List Char) : Cursor := ⟨cs, TokenLocation.init, 0, 0⟩

/-- The states of the lexical state machine (`src/lexer/states.rs`):
`StateStart`, `StateString`, `StateComment`, `StateNumber`, `StateWord`,
`StateSymbol`, `StateEOF`, `StateEnd`. -/
inductive LexState where
  | start
  | strL
  | comment
  | number
  | word
  | symbol
  | eofS
  | endS
deriving DecidableEq, Repr

/-- Model of `TransitionKind` from `src/lexer/states.rs`. -/
inductive TransitionKind where
  | consume
  | advanceOffset
  | empty
  | emitToken (t : Token)
  | endT
deriving DecidableEq, Repr

/-- Model of `TransitionKind::apply`. -/
def TransitionKind.apply : TransitionKind → Cursor → Cursor
  | .consume, c => c.consume
  | .advanceOffset, c => c.advanceOffset
  | .empty, c => c
  | .emitToken _, c => c.align
  | .endT, c => c

/-- Model of `StateStart::visit`.  The arms are tried in source order.  The space/tab
arm only consumes — the whitespace-token emission in the source is commented
out ("Uncomment to emit whitespace tokens").  `none` models a panic inside
`visit` (here: `remove_carriage_return`). -/
def visitStart (c : Cursor) : Option (Cursor × LexState × TransitionKind) :=
  match c.peek with
  | some ch =>
    if ch = ' ' ∨ ch = '\t' then some (c, .start, .consume)
    else if ch = '\r' then
      (c.removeCarriageReturn).map (fun c1 => (c1, .start, .empty))
    else if ch = '"' then some (c, .strL, .advanceOffset)
    else if isAlphabetic ch ∨ ch = '_' then some (c, .word, .advanceOffset)
    else if isSymbolChar ch then some (c, .symbol, .empty)
    else if ch = '#' then some (c, .comment, .advanceOffset)
    else if isAsciiDigit ch then some (c, .number, .advanceOffset)
    else
      let c1 := c.advanceOffset
      some (c1, .start, .emitToken ⟨.tokenUnknown, [ch], c1.location⟩)
  | none => some (c, .eofS, .consume)

/-- Model of `StateString::visit`.  The source's trailing `Some(c)` arm is unreachable
(the two guards `c != '"'` and `c == '"'` are exhaustive over `Some`). -/
def visitString (c : Cursor) : Option (Cursor × LexState × TransitionKind) :=
  match c.peek with
  | some ch =>
    if ch ≠ '"' then some (c, .strL, .advanceOffset)
    else
      let c1 := c.advanceOffset
      (sliceBytes c1.content c1.index c1.offset).map (fun lexeme =>
        (c1, .start, .emitToken ⟨.tokenLiteral .str, lexeme, c1.location⟩))
  | none => some (c, .eofS, .consume)

/-- Model of `StateComment::visit` — the `_` arm (emit) covers both a peeked `\n`/`\r`
and end of input. -/
def visitComment (c : Cursor) : Option (Cursor × LexState × TransitionKind) :=
  match c.peek with
  | some ch =>
    if ch ≠ '\n' ∧ ch ≠ '\r' then some (c, .comment, .advanceOffset)
    else
      (sliceBytes c.content c.index c.offset).map (fun lexeme =>
        (c, .start, .emitToken ⟨.tokenComment, lexeme, c.location⟩))
  | none =>
    (sliceBytes c.content c.index c.offset).map (fun lexeme =>
      (c, .start, .emitToken ⟨.tokenComment, lexeme, c.location⟩))

/-- Model of `StateNumber::visit`. -/
def visitNumber (c : Cursor) : Option (Cursor × LexState × TransitionKind) :=
  match c.peek with
  | some ch =>
    if isAsciiDigit ch ∨ ch = '.' then some (c, .number, .advanceOffset)
    else
      (sliceBytes c.content c.index c.offset).map (fun lexeme =>
        (c, .start, .emitToken ⟨tokenKindFrom lexeme, lexeme, c.location⟩))
  | none =>
    (sliceBytes c.content c.index c.offset).map (fun lexeme =>
      (c, .start, .emitToken ⟨tokenKindFrom lexeme, lexeme, c.location⟩))

/-- Model of `StateWord::visit`. -/
def visitWord (c : Cursor) : Option (Cursor × LexState × TransitionKind) :=
  match c.peek with
  | some ch =>
    if isAlphanumeric ch ∨ ch = '_' then some (c, .word, .advanceOffset)
    else
      (sliceBytes c.content c.index c.offset).map (fun lexeme =>
        (c, .start, .emitToken ⟨tokenKindFrom lexeme, lexeme, c.location⟩))
  | none =>
    (sliceBytes c.content c.index c.offset).map (fun lexeme =>
      (c, .start, .emitToken ⟨tokenKindFrom lexeme, lexeme, c.location⟩))

/-- Model of `StateSymbol::visit`.  On `\n`: if the pending text classifies into the
`valid_token_at_end_of_line` set (only `TokenAssign`), emit it as-is;
otherwise build a Newline token whose lexeme is the *two characters* `\` `n`
(the Rust literal `"\\n"`), call `cursor.new_line()`, and return —
the pending text is not emitted.  The last two `Some` guards of the source
(`is_symbol` / `!is_symbol`) are complementary, so the trailing `Some(c)` arm
is unreachable and the pair is modelled by one `if`. -/
def visitSymbol (c : Cursor) : Option (Cursor × LexState × TransitionKind) :=
  match c.peek with
  | some ch =>
    if ch = '\n' then
      (sliceBytes c.content c.index c.offset).bind (fun lexeme =>
        let kind := tokenKindFrom lexeme
        if kind = .tokenAssign then
          some (c, .start, .emitToken ⟨kind, lexeme, c.location⟩)
        else
          some (c.newLine, .start, .emitToken ⟨.tokenNewLine, ['\\', 'n'], c.location⟩))
    else if canFollowSymbol ch then some (c, .symbol, .advanceOffset)
    else if isSymbolChar ch then
      (sliceBytes c.content c.index (c.offset + 1)).map (fun lexeme =>
        let c1 := c.advanceOffset
        (c1, .start, .emitToken ⟨tokenKindFrom lexeme, lexeme, c1.location⟩))
    else
      (sliceBytes c.content c.index c.offset).map (fun lexeme =>
        (c, .start, .emitToken ⟨tokenKindFrom lexeme, lexeme, c.location⟩))
  | none => some (c, .eofS, .consume)

/-- Model of `StateEOF::visit`: align, then emit the EOF token with an empty lexeme. -/
def visitEOF (c : Cursor) : Option (Cursor × LexState × TransitionKind) :=
  let c1 := c.align
  some (c1, .endS, .emitToken ⟨.tokenEOF, [], c1.location⟩)

/-- Model of `StateEnd::visit`. -/
def visitEnd (c : Cursor) : Option (Cursor × LexState × TransitionKind) :=
  some (c, .endS, .endT)

/-- Dispatch `State::visit` over the state. -/
def visit : LexState → Cursor → Option (Cursor × LexState × TransitionKind)
  | .start, c => visitStart c
  | .strL, c => visitString c
  | .comment, c => visitComment c
  | .number, c => visitNumber c
  | .word, c => visitWord c
  | .symbol, c => visitSymbol c
  | .eofS, c => visitEOF c
  | .endS, c => visitEnd c

/-- One iteration of the `Lexer::next` loop (`src/lexer/mod.rs`): run the
current state's `visit`, apply the transition kind to the cursor, then report
an emitted token / the end of the stream / an internal panic / a plain state
change.  (The `Err` arm of the driver is dead code: every `visit` in
`states.rs` returns `Ok`.) -/
inductive Step where
  | crash
  | stop
  | emit (t : Token) (s : LexState) (c : Cursor)
  | next (s : LexState) (c : Cursor)
deriving DecidableEq, Repr

def lexStep (s : LexState) (c : Cursor) : Step :=
  match visit s c with
  | none => .crash
  | some (c1, s1, .emitToken t) => .emit t s1 c1.align
  | some (_, _, .endT) => .stop
  | some (c1, s1, .consume) => .next s1 c1.consume
  | some (c1, s1, .advanceOffset) => .next s1 c1.advanceOffset
  | some (c1, s1, .empty) => .next s1 c1

/-- The result of running the driver loop to completion with a step budget:
`crash` models a Rust panic, `outOfFuel` an exhausted budget (shown below to
be unreachable from any initial configuration), `done ts` the finite token
sequence collected from the iterator. -/
inductive RunResult where
  | crash
  | outOfFuel
  | done (ts : List Token)
deriving DecidableEq, Repr

def lexRun : Nat → LexState → Cursor → RunResult
  | 0, _, _ => .outOfFuel
  | n + 1, s, c =>
    match lexStep s c with
    | .crash => .crash
    | .stop => .done []
    | .next s1 c1 => lexRun n s1 c1
    | .emit t s1 c1 =>
      match lexRun n s1 c1 with
      | .done ts => .done (t :: ts)
      | r => r

/-- A step budget sufficient for any input (proved below: the loop measure
starts at `4 * length + 3`). -/
def lexFuel (cs : List Char) : Nat := 4 * cs.length + 4

/-- Collect the whole token stream of an input, as `Lexer::new(source).collect()`. -/
def lexListR (cs : List Char) : RunResult := lexRun (lexFuel cs) .start (mkCursor cs)

/-- The token kinds of a completed run. -/
def tokenKinds (r : RunResult) : Option (List TokenKind) :=
  match r with
  | .done ts => some (ts.map Token.kind)
  | _ => none

/-- The concatenation of all lexemes of a completed run. -/
def lexConcat (r : RunResult) : Option (List Char) :=
  match r with
  | .done ts => some (ts.map Token.lexeme).flatten
  | _ => none

/-! ## Basic facts about the cursor operations -/

/-- All-ASCII contents (each character is a single UTF-8 byte). -/
def AllAscii (cs : List Char) : Bool := cs.all (fun ch => ch.toNat < 128)

lemma charBytes_pos (c : Char) : 0 < charBytes c := by
  unfold charBytes
  split_ifs <;> omega

lemma charBytes_of_ascii {c : Char} (h : c.toNat < 128) : charBytes c = 1 := by
  unfold charBytes
  rw [if_pos h]

lemma byteLen_cons (c : Char) (l : List Char) :
    byteLen (c :: l) = charBytes c + byteLen l := by
  simp [byteLen]

lemma length_le_byteLen (l : List Char) : l.length ≤ byteLen l := by
  induction l with
  | nil => simp [byteLen]
  | cons c rest ih =>
    rw [byteLen_cons]
    have := charBytes_pos c
    simp only [List.length_cons]
    omega

lemma byteLen_of_ascii {l : List Char} (h : ∀ ch ∈ l, ch.toNat < 128) :
    byteLen l = l.length := by
  induction l with
  | nil => simp [byteLen]
  | cons c rest ih =>
    rw [byteLen_cons, charBytes_of_ascii (h c (by simp)), ih (fun ch hm => h ch (by simp [hm]))]
    simp only [List.length_cons]
    omega

lemma align_content (c : Cursor) : (c.align).content = c.content := rfl

lemma align_index (c : Cursor) : (c.align).index = c.offset := rfl

lemma align_offset (c : Cursor) : (c.align).offset = c.offset := rfl

lemma align_line (c : Cursor) : (c.align).location.line = c.location.line := rfl

lemma align_colStart (c : Cursor) :
    (c.align).location.columnStart = c.location.columnEnd := rfl

lemma align_colEnd (c : Cursor) :
    (c.align).location.columnEnd = c.location.columnEnd := rfl

lemma isEof_false_iff (c : Cursor) : c.isEof = false ↔ c.index < byteLen c.content := by
  simp [Cursor.isEof]

lemma peek_eq_some {c : Cursor} {ch : Char} (h : c.peek = some ch) :
    c.isEof = false ∧ c.content[c.offset]? = some ch := by
  unfold Cursor.peek at h
  by_cases he : c.isEof
  · simp [he] at h
  · simp only [Bool.not_eq_true] at he
    simp [he] at h
    exact ⟨he, h⟩

lemma peek_some_offset_lt {c : Cursor} {ch : Char} (h : c.peek = some ch) :
    c.offset < c.content.length :=
  (List.getElem?_eq_some.mp (peek_eq_some h).2).1

lemma peek_some_not_eof {c : Cursor} {ch : Char} (h : c.peek = some ch) :
    c.isEof = false := (peek_eq_some h).1

lemma peek_some_mem {c : Cursor} {ch : Char} (h : c.peek = some ch) :
    ch ∈ c.content := List.getElem?_mem (peek_eq_some h).2

lemma consume_of_not_eof {c : Cursor} (h : c.isEof = false) :
    c.consume = ⟨c.content,
      ⟨c.location.line, c.location.columnStart + 1, c.location.columnEnd + 1⟩,
      c.index + 1, c.offset + 1⟩ := by
  unfold Cursor.consume
  rw [h]
  rfl

lemma consume_of_eof {c : Cursor} (h : c.isEof = true) : c.consume = c := by
  unfold Cursor.consume
  rw [h]
  rfl

lemma consume_content (c : Cursor) : (c.consume).content = c.content := by
  unfold Cursor.consume
  split <;> rfl

lemma consume_index_le (c : Cursor) : c.index ≤ (c.consume).index ∧
    (c.consume).index ≤ c.index + 1 := by
  unfold Cursor.consume
  split <;> simp

lemma advanceOffset_of_not_eof {c : Cursor} (h : c.isEof = false) :
    c.advanceOffset = ⟨c.content,
      ⟨c.location.line, c.location.columnStart, c.location.columnEnd + 1⟩,
      c.index, c.offset + 1⟩ := by
  unfold Cursor.advanceOffset
  rw [h]
  rfl

lemma newLine_of_not_eof {c : Cursor} (h : c.isEof = false) :
    c.newLine = ⟨c.content,
      ⟨c.location.line + 1, 0, 0⟩,
      c.offset, c.offset + 1⟩ := by
  unfold Cursor.newLine
  rw [h]
  rfl

/-! ## Byte-level slicing lemmas -/

lemma removeAtByte_length {l m : List Char} {n : Nat}
    (h : removeAtByte l n = some m) : m.length + 1 = l.length := by
  induction l generalizing n m with
  | nil => simp [removeAtByte] at h
  | cons c rest ih =>
    match n with
    | 0 =>
      simp [removeAtByte] at h
      subst h
      simp
    | k + 1 =>
      unfold removeAtByte at h
      by_cases hc : charBytes c ≤ k + 1
      · rw [if_pos hc] at h
        rcases Option.map_eq_some'.mp h with ⟨m0, hm0, rfl⟩
        have := ih hm0
        simp
        omega
      · rw [if_neg hc] at h
        exact absurd h (by simp)

lemma removeAtByte_sublist {l m : List Char} {n : Nat}
    (h : removeAtByte l n = some m) : m.Sublist l := by
  induction l generalizing n m with
  | nil => simp [removeAtByte] at h
  | cons c rest ih =>
    match n with
    | 0 =>
      simp [removeAtByte] at h
      subst h
      exact List.sublist_cons_self c rest
    | k + 1 =>
      unfold removeAtByte at h
      by_cases hc : charBytes c ≤ k + 1
      · rw [if_pos hc] at h
        rcases Option.map_eq_some'.mp h with ⟨m0, hm0, rfl⟩
        exact (ih hm0).cons₂ c
      · rw [if_neg hc] at h
        exact absurd h (by simp)

lemma removeAtByte_of_ascii {l : List Char} {n : Nat}
    (ha : ∀ ch ∈ l, ch.toNat < 128) (h : n < l.length) :
    removeAtByte l n = some (l.eraseIdx n) := by
  induction l generalizing n with
  | nil => simp at h
  | cons c rest ih =>
    match n with
    | 0 => simp [removeAtByte]
    | k + 1 =>
      unfold removeAtByte
      have hc : charBytes c = 1 := charBytes_of_ascii (ha c (by simp))
      rw [hc, if_pos (by omega)]
      have : k + 1 - 1 = k := by omega
      rw [this, ih (fun ch hm => ha ch (by simp [hm])) (by simp at h; omega)]
      simp [List.eraseIdx]

lemma dropBytes_of_ascii {l : List Char} {n : Nat}
    (ha : ∀ ch ∈ l, ch.toNat < 128) (h : n ≤ l.length) :
    dropBytes l n = some (l.drop n) := by
  induction l generalizing n with
  | nil =>
    match n with
    | 0 => rfl
    | k + 1 => simp at h
  | cons c rest ih =>
    match n with
    | 0 => rfl
    | k + 1 =>
      unfold dropBytes
      have hc : charBytes c = 1 := charBytes_of_ascii (ha c (by simp))
      rw [hc, if_pos (by omega)]
      have : k + 1 - 1 = k := by omega
      rw [this, ih (fun ch hm => ha ch (by simp [hm])) (by simp at h; omega)]
      rfl

lemma takeBytes_of_ascii {l : List Char} {n : Nat}
    (ha : ∀ ch ∈ l, ch.toNat < 128) (h : n ≤ l.length) :
    takeBytes l n = some (l.take n) := by
  induction l generalizing n with
  | nil =>
    match n with
    | 0 => rfl
    | k + 1 => simp at h
  | cons c rest ih =>
    match n with
    | 0 => rfl
    | k + 1 =>
      unfold takeBytes
      have hc : charBytes c = 1 := charBytes_of_ascii (ha c (by simp))
      rw [hc, if_pos (by omega)]
      have : k + 1 - 1 = k := by omega
      rw [this, ih (fun ch hm => ha ch (by simp [hm])) (by simp at h; omega)]
      rfl

lemma sliceBytes_of_ascii {l : List Char} {i j : Nat}
    (ha : ∀ ch ∈ l, ch.toNat < 128) (hij : i ≤ j) (hj : j ≤ l.length) :
    sliceBytes l i j = some ((l.drop i).take (j - i)) := by
  unfold sliceBytes
  rw [if_pos hij, dropBytes_of_ascii ha (by omega)]
  rw [Option.some_bind]
  exact takeBytes_of_ascii
    (fun ch hm => ha ch (List.mem_of_mem_drop hm))
    (by rw [List.length_drop]; omega)

lemma takeBytes_nonempty {l m : List Char} {n : Nat}
    (h : takeBytes l n = some m) (hm : m ≠ []) : 0 < n := by
  match n with
  | 0 =>
    unfold takeBytes at h
    simp at h
    exact absurd h hm
  | k + 1 => omega

lemma sliceBytes_nonempty {l m : List Char} {i j : Nat}
    (h : sliceBytes l i j = some m) (hm : m ≠ []) : i < j := by
  unfold sliceBytes at h
  by_cases hij : i ≤ j
  · rw [if_pos hij] at h
    rcases Option.bind_eq_some.mp h with ⟨rest, _, htake⟩
    have := takeBytes_nonempty htake hm
    omega
  · rw [if_neg hij] at h
    exact absurd h (by simp)

/-! ## Exhaustive case analysis of one driver iteration

`StepCase s c st` enumerates the branches of the state machine: it holds
exactly when running one iteration of the driver loop from state `s` and
cursor `c` produces step `st` through the named branch of the corresponding
`visit` function.  `stepCase_complete` shows the enumeration is exhaustive. -/

inductive StepCase : LexState → Cursor → Step → Prop where
  | startWs (c : Cursor) (ch : Char) (hp : c.peek = some ch)
      (hch : ch = ' ' ∨ ch = '\t') :
      StepCase .start c (.next .start c.consume)
  | startCr (c c1 : Cursor) (hp : c.peek = some '\r')
      (hrm : c.removeCarriageReturn = some c1) :
      StepCase .start c (.next .start c1)
  | startCrCrash (c : Cursor) (hp : c.peek = some '\r')
      (hrm : c.removeCarriageReturn = none) :
      StepCase .start c .crash
  | startQuote (c : Cursor) (hp : c.peek = some '"') :
      StepCase .start c (.next .strL c.advanceOffset)
  | startAlpha (c : Cursor) (ch : Char) (hp : c.peek = some ch)
      (hch : isAlphabetic ch = true ∨ ch = '_') :
      StepCase .start c (.next .word c.advanceOffset)
  | startSym (c : Cursor) (ch : Char) (hp : c.peek = some ch)
      (hna : ¬(isAlphabetic ch = true ∨ ch = '_'))
      (hs : isSymbolChar ch = true) :
      StepCase .start c (.next .symbol c)
  | startHash (c : Cursor) (hp : c.peek = some '#') :
      StepCase .start c (.next .comment c.advanceOffset)
  | startDigit (c : Cursor) (ch : Char) (hp : c.peek = some ch)
      (hd : isAsciiDigit ch = true) :
      StepCase .start c (.next .number c.advanceOffset)
  | startOther (c : Cursor) (ch : Char) (hp : c.peek = some ch)
      (h1 : ¬(ch = ' ' ∨ ch = '\t')) (h2 : ch ≠ '\r') (h3 : ch ≠ '"')
      (h4 : ¬(isAlphabetic ch = true ∨ ch = '_'))
      (h5 : ¬ isSymbolChar ch = true) (h6 : ch ≠ '#')
      (h7 : ¬ isAsciiDigit ch = true) :
      StepCase .start c
        (.emit ⟨.tokenUnknown, [ch], (c.advanceOffset).location⟩ .start
          ((c.advanceOffset).align))
  | startEof (c : Cursor) (hp : c.peek = none) :
      StepCase .start c (.next .eofS c.consume)
  | strAdv (c : Cursor) (ch : Char) (hp : c.peek = some ch) (h : ch ≠ '"') :
      StepCase .strL c (.next .strL c.advanceOffset)
  | strClose (c : Cursor) (lexeme : List Char) (hp : c.peek = some '"')
      (hsl : sliceBytes (c.advanceOffset).content (c.advanceOffset).index
        (c.advanceOffset).offset = some lexeme) :
      StepCase .strL c
        (.emit ⟨.tokenLiteral .str, lexeme, (c.advanceOffset).location⟩ .start
          ((c.advanceOffset).align))
  | strCloseCrash (c : Cursor) (hp : c.peek = some '"')
      (hsl : sliceBytes (c.advanceOffset).content (c.advanceOffset).index
        (c.advanceOffset).offset = none) :
      StepCase .strL c .crash
  | strEof (c : Cursor) (hp : c.peek = none) :
      StepCase .strL c (.next .eofS c.consume)
  | comAdv (c : Cursor) (ch : Char) (hp : c.peek = some ch)
      (h : ch ≠ '\n' ∧ ch ≠ '\r') :
      StepCase .comment c (.next .comment c.advanceOffset)
  | comEmit (c : Cursor) (lexeme : List Char)
      (hstop : c.peek = none ∨ ∃ ch, c.peek = some ch ∧ (ch = '\n' ∨ ch = '\r'))
      (hsl : sliceBytes c.content c.index c.offset = some lexeme) :
      StepCase .comment c
        (.emit ⟨.tokenComment, lexeme, c.location⟩ .start (c.align))
  | comCrash (c : Cursor)
      (hstop : c.peek = none ∨ ∃ ch, c.peek = some ch ∧ (ch = '\n' ∨ ch = '\r'))
      (hsl : sliceBytes c.content c.index c.offset = none) :
      StepCase .comment c .crash
  | numAdv (c : Cursor) (ch : Char) (hp : c.peek = some ch)
      (h : isAsciiDigit ch = true ∨ ch = '.') :
      StepCase .number c (.next .number c.advanceOffset)
  | numEmit (c : Cursor) (lexeme : List Char)
      (hstop : c.peek = none ∨
        ∃ ch, c.peek = some ch ∧ ¬(isAsciiDigit ch = true ∨ ch = '.'))
      (hsl : sliceBytes c.content c.index c.offset = some lexeme) :
      StepCase .number c
        (.emit ⟨tokenKindFrom lexeme, lexeme, c.location⟩ .start (c.align))
  | numCrash (c : Cursor)
      (hstop : c.peek = none ∨
        ∃ ch, c.peek = some ch ∧ ¬(isAsciiDigit ch = true ∨ ch = '.'))
      (hsl : sliceBytes c.content c.index c.offset = none) :
      StepCase .number c .crash
  | wordAdv (c : Cursor) (ch : Char) (hp : c.peek = some ch)
      (h : isAlphanumeric ch = true ∨ ch = '_') :
      StepCase .word c (.next .word c.advanceOffset)
  | wordEmit (c : Cursor) (lexeme : List Char)
      (hstop : c.peek = none ∨
        ∃ ch, c.peek = some ch ∧ ¬(isAlphanumeric ch = true ∨ ch = '_'))
      (hsl : sliceBytes c.content c.index c.offset = some lexeme) :
      StepCase .word c
        (.emit ⟨tokenKindFrom lexeme, lexeme, c.location⟩ .start (c.align))
  | wordCrash (c : Cursor)
      (hstop : c.peek = none ∨
        ∃ ch, c.peek = some ch ∧ ¬(isAlphanumeric ch = true ∨ ch = '_'))
      (hsl : sliceBytes c.content c.index c.offset = none) :
      StepCase .word c .crash
  | symNlAssign (c : Cursor) (lexeme : List Char) (hp : c.peek = some '\n')
      (hsl : sliceBytes c.content c.index c.offset = some lexeme)
      (hk : tokenKindFrom lexeme = .tokenAssign) :
      StepCase .symbol c
        (.emit ⟨tokenKindFrom lexeme, lexeme, c.location⟩ .start (c.align))
  | symNlNewline (c : Cursor) (lexeme : List Char) (hp : c.peek = some '\n')
      (hsl : sliceBytes c.content c.index c.offset = some lexeme)
      (hk : ¬ tokenKindFrom lexeme = .tokenAssign) :
      StepCase .symbol c
        (.emit ⟨.tokenNewLine, ['\\', 'n'], c.location⟩ .start ((c.newLine).align))
  | symNlCrash (c : Cursor) (hp : c.peek = some '\n')
      (hsl : sliceBytes c.content c.index c.offset = none) :
      StepCase .symbol c .crash
  | symGlue (c : Cursor) (ch : Char) (hp : c.peek = some ch) (h1 : ch ≠ '\n')
      (h2 : canFollowSymbol ch = true) :
      StepCase .symbol c (.next .symbol c.advanceOffset)
  | symMerge (c : Cursor) (ch : Char) (lexeme : List Char)
      (hp : c.peek = some ch) (h1 : ch ≠ '\n')
      (h2 : ¬ canFollowSymbol ch = true) (h3 : isSymbolChar ch = true)
      (hsl : sliceBytes c.content c.index (c.offset + 1) = some lexeme) :
      StepCase .symbol c
        (.emit ⟨tokenKindFrom lexeme, lexeme, (c.advanceOffset).location⟩ .start
          ((c.advanceOffset).align))
  | symMergeCrash (c : Cursor) (ch : Char) (hp : c.peek = some ch)
      (h1 : ch ≠ '\n') (h2 : ¬ canFollowSymbol ch = true)
      (h3 : isSymbolChar ch = true)
      (hsl : sliceBytes c.content c.index (c.offset + 1) = none) :
      StepCase .symbol c .crash
  | symOther (c : Cursor) (ch : Char) (lexeme : List Char)
      (hp : c.peek = some ch) (h1 : ch ≠ '\n')
      (h2 : ¬ canFollowSymbol ch = true) (h3 : ¬ isSymbolChar ch = true)
      (hsl : sliceBytes c.content c.index c.offset = some lexeme) :
      StepCase .symbol c
        (.emit ⟨tokenKindFrom lexeme, lexeme, c.location⟩ .start (c.align))
  | symOtherCrash (c : Cursor) (ch : Char) (hp : c.peek = some ch)
      (h1 : ch ≠ '\n') (h2 : ¬ canFollowSymbol ch = true)
      (h3 : ¬ isSymbolChar ch = true)
      (hsl : sliceBytes c.content c.index c.offset = none) :
      StepCase .symbol c .crash
  | symEof (c : Cursor) (hp : c.peek = none) :
      StepCase .symbol c (.next .eofS c.consume)
  | eofEmit (c : Cursor) :
      StepCase .eofS c
        (.emit ⟨.tokenEOF, [], (c.align).location⟩ .endS ((c.align).align))
  | endStop (c : Cursor) : StepCase .endS c .stop

theorem stepCase_complete (s : LexState) (c : Cursor) : StepCase s c (lexStep s c) := by
  cases s
  case start =>
    rcases hp : c.peek with _ | ch
    · rw [show lexStep .start c = .next .eofS c.consume by
        simp +decide [lexStep, visit, visitStart, hp]]
      exact .startEof c hp
    · by_cases h1 : ch = ' ' ∨ ch = '\t'
      · rw [show lexStep .start c = .next .start c.consume by
          simp +decide [lexStep, visit, visitStart, hp, h1]]
        exact .startWs c ch hp h1
      · by_cases h2 : ch = '\r'
        · subst h2
          rcases hrm : c.removeCarriageReturn with _ | c1
          · rw [show lexStep .start c = .crash by
              simp +decide [lexStep, visit, visitStart, hp, h1, hrm]]
            exact .startCrCrash c hp hrm
          · rw [show lexStep .start c = .next .start c1 by
              simp +decide [lexStep, visit, visitStart, hp, h1, hrm]]
            exact .startCr c c1 hp hrm
        · by_cases h3 : ch = '"'
          · subst h3
            rw [show lexStep .start c = .next .strL c.advanceOffset by
              simp +decide [lexStep, visit, visitStart, hp, h1, h2]]
            exact .startQuote c hp
          · by_cases h4 : isAlphabetic ch = true ∨ ch = '_'
            · rw [show lexStep .start c = .next .word c.advanceOffset by
                simp +decide [lexStep, visit, visitStart, hp, h1, h2, h3, h4]]
              exact .startAlpha c ch hp h4
            · by_cases h5 : isSymbolChar ch = true
              · rw [show lexStep .start c = .next .symbol c by
                  simp +decide [lexStep, visit, visitStart, hp, h1, h2, h3, h4, h5]]
                exact .startSym c ch hp h4 h5
              · by_cases h6 : ch = '#'
                · subst h6
                  rw [show lexStep .start c = .next .comment c.advanceOffset by
                    simp +decide [lexStep, visit, visitStart, hp, h1, h2, h4, h5]]
                  exact .startHash c hp
                · by_cases h7 : isAsciiDigit ch = true
                  · rw [show lexStep .start c = .next .number c.advanceOffset by
                      simp +decide [lexStep, visit, visitStart, hp, h1, h2, h3, h4, h5, h6, h7]]
                    exact .startDigit c ch hp h7
                  · rw [show lexStep .start c =
                        .emit ⟨.tokenUnknown, [ch], (c.advanceOffset).location⟩ .start
                          ((c.advanceOffset).align) by
                      simp +decide [lexStep, visit, visitStart, hp, h1, h2, h3, h4, h5, h6, h7]]
                    exact .startOther c ch hp h1 h2 h3 h4 h5 h6 h7
  case strL =>
    rcases hp : c.peek with _ | ch
    · rw [show lexStep .strL c = .next .eofS c.consume by
        simp +decide [lexStep, visit, visitString, hp]]
      exact .strEof c hp
    · by_cases h1 : ch = '"'
      · subst h1
        rcases hsl : sliceBytes (c.advanceOffset).content (c.advanceOffset).index
            (c.advanceOffset).offset with _ | lexeme
        · rw [show lexStep .strL c = .crash by
            simp +decide [lexStep, visit, visitString, hp, hsl]]
          exact .strCloseCrash c hp hsl
        · rw [show lexStep .strL c =
              .emit ⟨.tokenLiteral .str, lexeme, (c.advanceOffset).location⟩ .start
                ((c.advanceOffset).align) by
            simp +decide [lexStep, visit, visitString, hp, hsl]]
          exact .strClose c lexeme hp hsl
      · rw [show lexStep .strL c = .next .strL c.advanceOffset by
          simp +decide [lexStep, visit, visitString, hp, h1]]
        exact .strAdv c ch hp h1
  case comment =>
    rcases hp : c.peek with _ | ch
    · rcases hsl : sliceBytes c.content c.index c.offset with _ | lexeme
      · rw [show lexStep .comment c = .crash by
          simp +decide [lexStep, visit, visitComment, hp, hsl]]
        exact .comCrash c (Or.inl hp) hsl
      · rw [show lexStep .comment c =
            .emit ⟨.tokenComment, lexeme, c.location⟩ .start (c.align) by
          simp +decide [lexStep, visit, visitComment, hp, hsl]]
        exact .comEmit c lexeme (Or.inl hp) hsl
    · by_cases h1 : ch ≠ '\n' ∧ ch ≠ '\r'
      · rw [show lexStep .comment c = .next .comment c.advanceOffset by
          simp +decide [lexStep, visit, visitComment, hp, h1]]
        exact .comAdv c ch hp h1
      · have hstop : c.peek = none ∨ ∃ ch0, c.peek = some ch0 ∧ (ch0 = '\n' ∨ ch0 = '\r') := by
          right
          refine ⟨ch, hp, ?_⟩
          by_cases ha : ch = '\n'
          · exact Or.inl ha
          · right
            rcases not_and_or.mp h1 with hx | hx
            · exact absurd ha (by simpa using hx)
            · simpa using hx
        rcases hsl : sliceBytes c.content c.index c.offset with _ | lexeme
        · rw [show lexStep .comment c = .crash by
            simp +decide [lexStep, visit, visitComment, hp, h1, hsl]]
          exact .comCrash c hstop hsl
        · rw [show lexStep .comment c =
              .emit ⟨.tokenComment, lexeme, c.location⟩ .start (c.align) by
            simp +decide [lexStep, visit, visitComment, hp, h1, hsl]]
          exact .comEmit c lexeme hstop hsl
  case number =>
    rcases hp : c.peek with _ | ch
    · rcases hsl : sliceBytes c.content c.index c.offset with _ | lexeme
      · rw [show lexStep .number c = .crash by
          simp +decide [lexStep, visit, visitNumber, hp, hsl]]
        exact .numCrash c (Or.inl hp) hsl
      · rw [show lexStep .number c =
            .emit ⟨tokenKindFrom lexeme, lexeme, c.location⟩ .start (c.align) by
          simp +decide [lexStep, visit, visitNumber, hp, hsl]]
        exact .numEmit c lexeme (Or.inl hp) hsl
    · by_cases h1 : isAsciiDigit ch = true ∨ ch = '.'
      · rw [show lexStep .number c = .next .number c.advanceOffset by
          simp +decide [lexStep, visit, visitNumber, hp, h1]]
        exact .numAdv c ch hp h1
      · rcases hsl : sliceBytes c.content c.index c.offset with _ | lexeme
        · rw [show lexStep .number c = .crash by
            simp +decide [lexStep, visit, visitNumber, hp, h1, hsl]]
          exact .numCrash c (Or.inr ⟨ch, hp, h1⟩) hsl
        · rw [show lexStep .number c =
              .emit ⟨tokenKindFrom lexeme, lexeme, c.location⟩ .start (c.align) by
            simp +decide [lexStep, visit, visitNumber, hp, h1, hsl]]
          exact .numEmit c lexeme (Or.inr ⟨ch, hp, h1⟩) hsl
  case word =>
    rcases hp : c.peek with _ | ch
    · rcases hsl : sliceBytes c.content c.index c.offset with _ | lexeme
      · rw [show lexStep .word c = .crash by
          simp +decide [lexStep, visit, visitWord, hp, hsl]]
        exact .wordCrash c (Or.inl hp) hsl
      · rw [show lexStep .word c =
            .emit ⟨tokenKindFrom lexeme, lexeme, c.location⟩ .start (c.align) by
          simp +decide [lexStep, visit, visitWord, hp, hsl]]
        exact .wordEmit c lexeme (Or.inl hp) hsl
    · by_cases h1 : isAlphanumeric ch = true ∨ ch = '_'
      · rw [show lexStep .word c = .next .word c.advanceOffset by
          simp +decide [lexStep, visit, visitWord, hp, h1]]
        exact .wordAdv c ch hp h1
      · rcases hsl : sliceBytes c.content c.index c.offset with _ | lexeme
        · rw [show lexStep .word c = .crash by
            simp +decide [lexStep, visit, visitWord, hp, h1, hsl]]
          exact .wordCrash c (Or.inr ⟨ch, hp, h1⟩) hsl
        · rw [show lexStep .word c =
              .emit ⟨tokenKindFrom lexeme, lexeme, c.location⟩ .start (c.align) by
            simp +decide [lexStep, visit, visitWord, hp, h1, hsl]]
          exact .wordEmit c lexeme (Or.inr ⟨ch, hp, h1⟩) hsl
  case symbol =>
    rcases hp : c.peek with _ | ch
    · rw [show lexStep .symbol c = .next .eofS c.consume by
        simp +decide [lexStep, visit, visitSymbol, hp]]
      exact .symEof c hp
    · by_cases h1 : ch = '\n'
      · subst h1
        rcases hsl : sliceBytes c.content c.index c.offset with _ | lexeme
        · rw [show lexStep .symbol c = .crash by
            simp +decide [lexStep, visit, visitSymbol, hp, hsl]]
          exact .symNlCrash c hp hsl
        · by_cases hk : tokenKindFrom lexeme = .tokenAssign
          · rw [show lexStep .symbol c =
                .emit ⟨tokenKindFrom lexeme, lexeme, c.location⟩ .start (c.align) by
              simp +decide [lexStep, visit, visitSymbol, hp, hsl, hk]]
            exact .symNlAssign c lexeme hp hsl hk
          · rw [show lexStep .symbol c =
                .emit ⟨.tokenNewLine, ['\\', 'n'], c.location⟩ .start ((c.newLine).align) by
              simp +decide [lexStep, visit, visitSymbol, hp, hsl, hk]]
            exact .symNlNewline c lexeme hp hsl hk
      · by_cases h2 : canFollowSymbol ch = true
        · rw [show lexStep .symbol c = .next .symbol c.advanceOffset by
            simp +decide [lexStep, visit, visitSymbol, hp, h1, h2]]
          exact .symGlue c ch hp h1 h2
        · by_cases h3 : isSymbolChar ch = true
          · rcases hsl : sliceBytes c.content c.index (c.offset + 1) with _ | lexeme
            · rw [show lexStep .symbol c = .crash by
                simp +decide [lexStep, visit, visitSymbol, hp, h1, h2, h3, hsl]]
              exact .symMergeCrash c ch hp h1 h2 h3 hsl
            · rw [show lexStep .symbol c =
                  .emit ⟨tokenKindFrom lexeme, lexeme, (c.advanceOffset).location⟩ .start
                    ((c.advanceOffset).align) by
                simp +decide [lexStep, visit, visitSymbol, hp, h1, h2, h3, hsl]]
              exact .symMerge c ch lexeme hp h1 h2 h3 hsl
          · rcases hsl : sliceBytes c.content c.index c.offset with _ | lexeme
            · rw [show lexStep .symbol c = .crash by
                simp +decide [lexStep, visit, visitSymbol, hp, h1, h2, h3, hsl]]
              exact .symOtherCrash c ch hp h1 h2 h3 hsl
            · rw [show lexStep .symbol c =
                  .emit ⟨tokenKindFrom lexeme, lexeme, c.location⟩ .start (c.align) by
                simp +decide [lexStep, visit, visitSymbol, hp, h1, h2, h3, hsl]]
              exact .symOther c ch lexeme hp h1 h2 h3 hsl
  case eofS =>
    rw [show lexStep .eofS c =
        .emit ⟨.tokenEOF, [], (c.align).location⟩ .endS ((c.align).align) by
      simp +decide [lexStep, visit, visitEOF]]
    exact .eofEmit c
  case endS =>
    rw [show lexStep .endS c = .stop by simp +decide [lexStep, visit, visitEnd]]
    exact .endStop c

/-! ## The loop invariant and the termination measure

`LexInv` collects configuration facts that hold along every run started from
`Lexer::new` and that the proofs below rely on: the committed position never
passes the lookahead (`index ≤ offset`), the lookahead stays inside the text
except in the two terminal states, `column_start ≤ column_end`, the Start
state keeps `index = offset`, the scanning states keep a nonempty pending
window, and the pending window's first character remembers which Start
dispatch arm opened it. -/

structure LexInv (s : LexState) (c : Cursor) : Prop where
  hio : c.index ≤ c.offset
  hoff : s ≠ .eofS → s ≠ .endS → c.offset ≤ c.content.length
  hcol : c.location.columnStart ≤ c.location.columnEnd
  hstart : s = .start → c.index = c.offset
  hmid : s = .strL ∨ s = .comment ∨ s = .number ∨ s = .word → c.index < c.offset
  hsymp : s = .symbol →
    c.index < c.offset ∨ ∃ ch, c.peek = some ch ∧ isSymbolChar ch = true
  hwordHead : s = .word →
    ∃ ch, c.content[c.index]? = some ch ∧ (isAlphabetic ch = true ∨ ch = '_')
  hnumHead : s = .number →
    ∃ ch, c.content[c.index]? = some ch ∧ isAsciiDigit ch = true
  hsymHead : s = .symbol → c.index < c.offset →
    ∃ ch, c.content[c.index]? = some ch ∧ canFollowSymbol ch = true

lemma LexInv.mkStart {c : Cursor} (h1 : c.index = c.offset)
    (h2 : c.offset ≤ c.content.length)
    (h3 : c.location.columnStart ≤ c.location.columnEnd) : LexInv .start c :=
  ⟨le_of_eq h1, fun _ _ => h2, h3, fun _ => h1,
    by rintro (h | h | h | h) <;> simp at h,
    by intro h; simp at h, by intro h; simp at h,
    by intro h; simp at h, by intro h; simp at h⟩

lemma LexInv.mkStr {c : Cursor} (h1 : c.index < c.offset)
    (h2 : c.offset ≤ c.content.length)
    (h3 : c.location.columnStart ≤ c.location.columnEnd) : LexInv .strL c :=
  ⟨le_of_lt h1, fun _ _ => h2, h3, by intro h; simp at h,
    fun _ => h1,
    by intro h; simp at h, by intro h; simp at h,
    by intro h; simp at h, by intro h; simp at h⟩

lemma LexInv.mkComment {c : Cursor} (h1 : c.index < c.offset)
    (h2 : c.offset ≤ c.content.length)
    (h3 : c.location.columnStart ≤ c.location.columnEnd) : LexInv .comment c :=
  ⟨le_of_lt h1, fun _ _ => h2, h3, by intro h; simp at h,
    fun _ => h1,
    by intro h; simp at h, by intro h; simp at h,
    by intro h; simp at h, by intro h; simp at h⟩

lemma LexInv.mkNumber {c : Cursor} (h1 : c.index < c.offset)
    (h2 : c.offset ≤ c.content.length)
    (h3 : c.location.columnStart ≤ c.location.columnEnd)
    (h4 : ∃ ch, c.content[c.index]? = some ch ∧ isAsciiDigit ch = true) :
    LexInv .number c :=
  ⟨le_of_lt h1, fun _ _ => h2, h3, by intro h; simp at h,
    fun _ => h1,
    by intro h; simp at h, by intro h; simp at h,
    fun _ => h4, by intro h; simp at h⟩

lemma LexInv.mkWord {c : Cursor} (h1 : c.index < c.offset)
    (h2 : c.offset ≤ c.content.length)
    (h3 : c.location.columnStart ≤ c.location.columnEnd)
    (h4 : ∃ ch, c.content[c.index]? = some ch ∧ (isAlphabetic ch = true ∨ ch = '_')) :
    LexInv .word c :=
  ⟨le_of_lt h1, fun _ _ => h2, h3, by intro h; simp at h,
    fun _ => h1,
    by intro h; simp at h, fun _ => h4,
    by intro h; simp at h, by intro h; simp at h⟩

lemma LexInv.mkSymbol {c : Cursor} (h1 : c.index ≤ c.offset)
    (h2 : c.offset ≤ c.content.length)
    (h3 : c.location.columnStart ≤ c.location.columnEnd)
    (h4 : c.index < c.offset ∨ ∃ ch, c.peek = some ch ∧ isSymbolChar ch = true)
    (h5 : c.index < c.offset →
      ∃ ch, c.content[c.index]? = some ch ∧ canFollowSymbol ch = true) :
    LexInv .symbol c :=
  ⟨h1, fun _ _ => h2, h3, by intro h; simp at h,
    by rintro (h | h | h | h) <;> simp at h,
    fun _ => h4, by intro h; simp at h,
    by intro h; simp at h, fun _ => h5⟩

lemma LexInv.mkEof {c : Cursor} (h1 : c.index ≤ c.offset)
    (h3 : c.location.columnStart ≤ c.location.columnEnd) : LexInv .eofS c :=
  ⟨h1, fun h _ => absurd rfl h, h3, by intro h; simp at h,
    by rintro (h | h | h | h) <;> simp at h,
    by intro h; simp at h, by intro h; simp at h,
    by intro h; simp at h, by intro h; simp at h⟩

lemma LexInv.mkEnd {c : Cursor} (h1 : c.index ≤ c.offset)
    (h3 : c.location.columnStart ≤ c.location.columnEnd) : LexInv .endS c :=
  ⟨h1, fun _ h => absurd rfl h, h3, by intro h; simp at h,
    by rintro (h | h | h | h) <;> simp at h,
    by intro h; simp at h, by intro h; simp at h,
    by intro h; simp at h, by intro h; simp at h⟩

/-- A rank that orders the states along the terminal path
(`End < EOF < Symbol < the rest`). -/
def stateRank : LexState → Nat
  | .endS => 0
  | .eofS => 1
  | .symbol => 2
  | _ => 3

/-- The strictly decreasing loop measure: every iteration of the driver loop
either advances `offset`/`index`, shrinks the text (carriage-return removal),
or moves down the state rank. -/
def lexMeasure (s : LexState) (c : Cursor) : Nat :=
  2 * ((c.content.length - c.index) + (c.content.length - c.offset)) + stateRank s

/-- What one driver iteration guarantees: a plain state change or an emission
preserves the invariant and strictly decreases the measure. -/
def stepOk (s : LexState) (c : Cursor) : Step → Prop
  | .next s1 c1 => LexInv s1 c1 ∧ lexMeasure s1 c1 < lexMeasure s c
  | .emit _ s1 c1 => LexInv s1 c1 ∧ lexMeasure s1 c1 < lexMeasure s c
  | _ => True

lemma align_explicit (c : Cursor) : c.align =
    ⟨c.content, ⟨c.location.line, c.location.columnEnd, c.location.columnEnd⟩,
      c.offset, c.offset⟩ := rfl

lemma tokenKindFrom_nil : tokenKindFrom ([] : List Char) = .tokenLiteral .int := by decide

theorem lexStep_ok (s : LexState) (c : Cursor) (h : LexInv s c) :
    stepOk s c (lexStep s c) := by
  have hsc := stepCase_complete s c
  revert hsc
  generalize lexStep s c = st
  intro hsc
  cases hsc
  case startWs ch hch hp =>
    have hne := peek_some_not_eof hp
    have holt := peek_some_offset_lt hp
    have hieq := h.hstart rfl
    have hcl := h.hcol
    rw [consume_of_not_eof hne]
    refine ⟨LexInv.mkStart (by simp [hieq]) (by simp; omega) (by simp; omega), ?_⟩
    simp [lexMeasure, stateRank]
    omega
  case startCr c1 hp hrm =>
    have holt := peek_some_offset_lt hp
    unfold Cursor.removeCarriageReturn at hrm
    rcases Option.map_eq_some'.mp hrm with ⟨m, hm, rfl⟩
    have hlen : m.length + 1 = c.content.length := removeAtByte_length hm
    have hieq := h.hstart rfl
    refine ⟨LexInv.mkStart (by simp [hieq]) (by simp; omega) h.hcol, ?_⟩
    simp [lexMeasure, stateRank]
    omega
  case startCrCrash hp hrm => trivial
  case startQuote hp =>
    have hne := peek_some_not_eof hp
    have holt := peek_some_offset_lt hp
    have hio := h.hio
    have hcl := h.hcol
    rw [advanceOffset_of_not_eof hne]
    refine ⟨LexInv.mkStr (by simp; omega) (by simp; omega) (by simp; omega), ?_⟩
    simp [lexMeasure, stateRank]
    omega
  case startAlpha ch hch hp =>
    have hne := peek_some_not_eof hp
    have holt := peek_some_offset_lt hp
    have hio := h.hio
    have hcl := h.hcol
    have hieq := h.hstart rfl
    have hpk := (peek_eq_some hp).2
    rw [advanceOffset_of_not_eof hne]
    refine ⟨LexInv.mkWord (by simp; omega) (by simp; omega) (by simp; omega)
      ⟨ch, by simpa [hieq] using hpk, hch⟩, ?_⟩
    simp [lexMeasure, stateRank]
    omega
  case startSym ch hna hs hp =>
    have hieq := h.hstart rfl
    refine ⟨LexInv.mkSymbol h.hio (h.hoff (by simp) (by simp)) h.hcol
      (Or.inr ⟨ch, hp, hs⟩) (fun hlt => absurd hlt (by omega)), ?_⟩
    simp [lexMeasure, stateRank]
  case startHash hp =>
    have hne := peek_some_not_eof hp
    have holt := peek_some_offset_lt hp
    have hio := h.hio
    have hcl := h.hcol
    rw [advanceOffset_of_not_eof hne]
    refine ⟨LexInv.mkComment (by simp; omega) (by simp; omega) (by simp; omega), ?_⟩
    simp [lexMeasure, stateRank]
    omega
  case startDigit ch hd hp =>
    have hne := peek_some_not_eof hp
    have holt := peek_some_offset_lt hp
    have hio := h.hio
    have hcl := h.hcol
    have hieq := h.hstart rfl
    have hpk := (peek_eq_some hp).2
    rw [advanceOffset_of_not_eof hne]
    refine ⟨LexInv.mkNumber (by simp; omega) (by simp; omega) (by simp; omega)
      ⟨ch, by simpa [hieq] using hpk, hd⟩, ?_⟩
    simp [lexMeasure, stateRank]
    omega
  case startOther ch h1 h2 h3 h4 h5 h6 h7 hp =>
    have hne := peek_some_not_eof hp
    have holt := peek_some_offset_lt hp
    have hio := h.hio
    rw [advanceOffset_of_not_eof hne, align_explicit]
    refine ⟨LexInv.mkStart (by simp) (by simp; omega) (by simp), ?_⟩
    simp [lexMeasure, stateRank]
    omega
  case startEof hp =>
    by_cases he : c.isEof = true
    · rw [consume_of_eof he]
      refine ⟨LexInv.mkEof h.hio h.hcol, ?_⟩
      simp only [lexMeasure, stateRank]
      omega
    · have hne : c.isEof = false := by
        revert he
        cases c.isEof <;> simp
      have hio := h.hio
      have hcl := h.hcol
      rw [consume_of_not_eof hne]
      refine ⟨LexInv.mkEof (by simp; omega) (by simp; omega), ?_⟩
      simp [lexMeasure, stateRank]
      omega
  case strAdv ch hch hp =>
    have hne := peek_some_not_eof hp
    have holt := peek_some_offset_lt hp
    have hio := h.hio
    have hcl := h.hcol
    rw [advanceOffset_of_not_eof hne]
    refine ⟨LexInv.mkStr (by simp; omega) (by simp; omega) (by simp; omega), ?_⟩
    simp [lexMeasure, stateRank]
    omega
  case strClose lexeme hp hsl =>
    have hne := peek_some_not_eof hp
    have holt := peek_some_offset_lt hp
    have hio := h.hio
    rw [advanceOffset_of_not_eof hne, align_explicit]
    refine ⟨LexInv.mkStart (by simp) (by simp; omega) (by simp), ?_⟩
    simp [lexMeasure, stateRank]
    omega
  case strCloseCrash hp hsl => trivial
  case strEof hp =>
    by_cases he : c.isEof = true
    · rw [consume_of_eof he]
      refine ⟨LexInv.mkEof h.hio h.hcol, ?_⟩
      simp only [lexMeasure, stateRank]
      omega
    · have hne : c.isEof = false := by
        revert he
        cases c.isEof <;> simp
      have hio := h.hio
      have hcl := h.hcol
      rw [consume_of_not_eof hne]
      refine ⟨LexInv.mkEof (by simp; omega) (by simp; omega), ?_⟩
      simp [lexMeasure, stateRank]
      omega
  case comAdv ch hch hp =>
    have hne := peek_some_not_eof hp
    have holt := peek_some_offset_lt hp
    have hio := h.hio
    have hcl := h.hcol
    rw [advanceOffset_of_not_eof hne]
    refine ⟨LexInv.mkComment (by simp; omega) (by simp; omega) (by simp; omega), ?_⟩
    simp [lexMeasure, stateRank]
    omega
  case comEmit lexeme hstop hsl =>
    have hlt := h.hmid (by simp)
    have hoff := h.hoff (by simp) (by simp)
    rw [align_explicit]
    refine ⟨LexInv.mkStart (by simp) (by simp; omega) (by simp), ?_⟩
    simp [lexMeasure, stateRank]
    omega
  case comCrash hstop hsl => trivial
  case numAdv ch hch hp =>
    have hne := peek_some_not_eof hp
    have holt := peek_some_offset_lt hp
    have hio := h.hio
    have hcl := h.hcol
    have hhead := h.hnumHead rfl
    rw [advanceOffset_of_not_eof hne]
    refine ⟨LexInv.mkNumber (by simp; omega) (by simp; omega) (by simp; omega)
      (by simpa using hhead), ?_⟩
    simp [lexMeasure, stateRank]
    omega
  case numEmit lexeme hstop hsl =>
    have hlt := h.hmid (by simp)
    have hoff := h.hoff (by simp) (by simp)
    rw [align_explicit]
    refine ⟨LexInv.mkStart (by simp) (by simp; omega) (by simp), ?_⟩
    simp [lexMeasure, stateRank]
    omega
  case numCrash hstop hsl => trivial
  case wordAdv ch hch hp =>
    have hne := peek_some_not_eof hp
    have holt := peek_some_offset_lt hp
    have hio := h.hio
    have hcl := h.hcol
    have hhead := h.hwordHead rfl
    rw [advanceOffset_of_not_eof hne]
    refine ⟨LexInv.mkWord (by simp; omega) (by simp; omega) (by simp; omega)
      (by simpa using hhead), ?_⟩
    simp [lexMeasure, stateRank]
    omega
  case wordEmit lexeme hstop hsl =>
    have hlt := h.hmid (by simp)
    have hoff := h.hoff (by simp) (by simp)
    rw [align_explicit]
    refine ⟨LexInv.mkStart (by simp) (by simp; omega) (by simp), ?_⟩
    simp [lexMeasure, stateRank]
    omega
  case wordCrash hstop hsl => trivial
  case symNlAssign lexeme hk hp hsl =>
    have hlex : lexeme ≠ [] := by
      intro hL
      subst hL
      rw [tokenKindFrom_nil] at hk
      exact absurd hk (by decide)
    have hlt := sliceBytes_nonempty hsl hlex
    have hoff := h.hoff (by simp) (by simp)
    rw [align_explicit]
    refine ⟨LexInv.mkStart (by simp) (by simp; omega) (by simp), ?_⟩
    simp [lexMeasure, stateRank]
    omega
  case symNlNewline lexeme hk hp hsl =>
    have hne := peek_some_not_eof hp
    have holt := peek_some_offset_lt hp
    have hio := h.hio
    rw [newLine_of_not_eof hne, align_explicit]
    refine ⟨LexInv.mkStart (by simp) (by simp; omega) (by simp), ?_⟩
    simp [lexMeasure, stateRank]
    omega
  case symNlCrash hp hsl => trivial
  case symGlue ch h1 h2 hp =>
    have hne := peek_some_not_eof hp
    have holt := peek_some_offset_lt hp
    have hio := h.hio
    have hcl := h.hcol
    have hpk := (peek_eq_some hp).2
    rw [advanceOffset_of_not_eof hne]
    refine ⟨LexInv.mkSymbol (by simp; omega) (by simp; omega) (by simp; omega)
      (Or.inl (by simp; omega)) ?_, ?_⟩
    · intro hlt
      by_cases hio2 : c.index < c.offset
      · simpa using h.hsymHead rfl hio2
      · have hieq : c.index = c.offset := by omega
        exact ⟨ch, by simpa [hieq] using hpk, h2⟩
    · simp [lexMeasure, stateRank]
      omega
  case symMerge ch lexeme h1 h2 h3 hp hsl =>
    have hne := peek_some_not_eof hp
    have holt := peek_some_offset_lt hp
    have hio := h.hio
    rw [advanceOffset_of_not_eof hne, align_explicit]
    refine ⟨LexInv.mkStart (by simp) (by simp; omega) (by simp), ?_⟩
    simp [lexMeasure, stateRank]
    omega
  case symMergeCrash ch h1 h2 h3 hp hsl => trivial
  case symOther ch lexeme h1 h2 h3 hp hsl =>
    have hlt : c.index < c.offset := by
      rcases h.hsymp rfl with hlt | ⟨ch0, hp0, hs0⟩
      · exact hlt
      · rw [hp] at hp0
        injection hp0 with hch0
        subst hch0
        exact absurd hs0 h3
    have hoff := h.hoff (by simp) (by simp)
    rw [align_explicit]
    refine ⟨LexInv.mkStart (by simp) (by simp; omega) (by simp), ?_⟩
    simp [lexMeasure, stateRank]
    omega
  case symOtherCrash ch h1 h2 h3 hp hsl => trivial
  case symEof hp =>
    by_cases he : c.isEof = true
    · rw [consume_of_eof he]
      refine ⟨LexInv.mkEof h.hio h.hcol, ?_⟩
      simp only [lexMeasure, stateRank]
      omega
    · have hne : c.isEof = false := by
        revert he
        cases c.isEof <;> simp
      have hio := h.hio
      have hcl := h.hcol
      rw [consume_of_not_eof hne]
      refine ⟨LexInv.mkEof (by simp; omega) (by simp; omega), ?_⟩
      simp [lexMeasure, stateRank]
      omega
  case eofEmit =>
    have hio := h.hio
    rw [align_explicit, align_explicit]
    refine ⟨LexInv.mkEnd (by simp) (by simp), ?_⟩
    simp [lexMeasure, stateRank]
    omega
  case endStop => trivial

/-! ## Run-level theorems: termination, ASCII safety, the final EOF token -/

lemma advanceOffset_content (c : Cursor) : (c.advanceOffset).content = c.content := by
  unfold Cursor.advanceOffset
  split <;> rfl

lemma newLine_content (c : Cursor) : (c.newLine).content = c.content := by
  unfold Cursor.newLine
  split <;> rfl

lemma advanceOffset_index (c : Cursor) : (c.advanceOffset).index = c.index := by
  unfold Cursor.advanceOffset
  split <;> rfl

lemma advanceOffset_offset_of_not_eof {c : Cursor} (h : c.isEof = false) :
    (c.advanceOffset).offset = c.offset + 1 := by
  rw [advanceOffset_of_not_eof h]

/-- ASCII-only content. -/
def AsciiOk (c : Cursor) : Prop := ∀ ch ∈ c.content, ch.toNat < 128

/-- What one iteration guarantees on ASCII content: no panic, and the content
stays ASCII. -/
def stepOkAscii : Step → Prop
  | .crash => False
  | .next _ c1 => AsciiOk c1
  | .emit _ _ c1 => AsciiOk c1
  | .stop => True

theorem lexStep_ascii (s : LexState) (c : Cursor) (h : LexInv s c)
    (ha : AsciiOk c) : stepOkAscii (lexStep s c) := by
  have hsc := stepCase_complete s c
  revert hsc
  generalize lexStep s c = st
  intro hsc
  cases hsc
  case startWs ch hch hp =>
    intro ch0 hm
    exact ha ch0 (by simpa [consume_content] using hm)
  case startCr c1 hp hrm =>
    have holt := peek_some_offset_lt hp
    unfold Cursor.removeCarriageReturn at hrm
    rcases Option.map_eq_some'.mp hrm with ⟨m, hm0, rfl⟩
    intro ch0 hm
    exact ha ch0 ((removeAtByte_sublist hm0).subset (by simpa using hm))
  case startCrCrash hp hrm =>
    have holt := peek_some_offset_lt hp
    unfold Cursor.removeCarriageReturn at hrm
    rw [removeAtByte_of_ascii ha holt] at hrm
    simp at hrm
  case startQuote hp =>
    intro ch0 hm
    exact ha ch0 (by simpa [advanceOffset_content] using hm)
  case startAlpha ch hch hp =>
    intro ch0 hm
    exact ha ch0 (by simpa [advanceOffset_content] using hm)
  case startSym ch hna hs hp => exact ha
  case startHash hp =>
    intro ch0 hm
    exact ha ch0 (by simpa [advanceOffset_content] using hm)
  case startDigit ch hd hp =>
    intro ch0 hm
    exact ha ch0 (by simpa [advanceOffset_content] using hm)
  case startOther ch h1 h2 h3 h4 h5 h6 h7 hp =>
    intro ch0 hm
    exact ha ch0 (by simpa [align_content, advanceOffset_content] using hm)
  case startEof hp =>
    intro ch0 hm
    exact ha ch0 (by simpa [consume_content] using hm)
  case strAdv ch hch hp =>
    intro ch0 hm
    exact ha ch0 (by simpa [advanceOffset_content] using hm)
  case strClose lexeme hp hsl =>
    intro ch0 hm
    exact ha ch0 (by simpa [align_content, advanceOffset_content] using hm)
  case strCloseCrash hp hsl =>
    have hne := peek_some_not_eof hp
    have holt := peek_some_offset_lt hp
    rw [advanceOffset_content, advanceOffset_index, advanceOffset_offset_of_not_eof hne] at hsl
    rw [sliceBytes_of_ascii ha (by have := h.hio; omega) (by omega)] at hsl
    simp at hsl
  case strEof hp =>
    intro ch0 hm
    exact ha ch0 (by simpa [consume_content] using hm)
  case comAdv ch hch hp =>
    intro ch0 hm
    exact ha ch0 (by simpa [advanceOffset_content] using hm)
  case comEmit lexeme hstop hsl =>
    intro ch0 hm
    exact ha ch0 (by simpa [align_content] using hm)
  case comCrash hstop hsl =>
    rw [sliceBytes_of_ascii ha h.hio (h.hoff (by simp) (by simp))] at hsl
    simp at hsl
  case numAdv ch hch hp =>
    intro ch0 hm
    exact ha ch0 (by simpa [advanceOffset_content] using hm)
  case numEmit lexeme hstop hsl =>
    intro ch0 hm
    exact ha ch0 (by simpa [align_content] using hm)
  case numCrash hstop hsl =>
    rw [sliceBytes_of_ascii ha h.hio (h.hoff (by simp) (by simp))] at hsl
    simp at hsl
  case wordAdv ch hch hp =>
    intro ch0 hm
    exact ha ch0 (by simpa [advanceOffset_content] using hm)
  case wordEmit lexeme hstop hsl =>
    intro ch0 hm
    exact ha ch0 (by simpa [align_content] using hm)
  case wordCrash hstop hsl =>
    rw [sliceBytes_of_ascii ha h.hio (h.hoff (by simp) (by simp))] at hsl
    simp at hsl
  case symNlAssign lexeme hk hp hsl =>
    intro ch0 hm
    exact ha ch0 (by simpa [align_content] using hm)
  case symNlNewline lexeme hk hp hsl =>
    intro ch0 hm
    exact ha ch0 (by simpa [align_content, newLine_content] using hm)
  case symNlCrash hp hsl =>
    rw [sliceBytes_of_ascii ha h.hio (h.hoff (by simp) (by simp))] at hsl
    simp at hsl
  case symGlue ch h1 h2 hp =>
    intro ch0 hm
    exact ha ch0 (by simpa [advanceOffset_content] using hm)
  case symMerge ch lexeme h1 h2 h3 hp hsl =>
    intro ch0 hm
    exact ha ch0 (by simpa [align_content, advanceOffset_content] using hm)
  case symMergeCrash ch h1 h2 h3 hp hsl =>
    have holt := peek_some_offset_lt hp
    rw [sliceBytes_of_ascii ha (by have := h.hio; omega) (by omega)] at hsl
    simp at hsl
  case symOther ch lexeme h1 h2 h3 hp hsl =>
    intro ch0 hm
    exact ha ch0 (by simpa [align_content] using hm)
  case symOtherCrash ch h1 h2 h3 hp hsl =>
    rw [sliceBytes_of_ascii ha h.hio (h.hoff (by simp) (by simp))] at hsl
    simp at hsl
  case symEof hp =>
    intro ch0 hm
    exact ha ch0 (by simpa [consume_content] using hm)
  case eofEmit =>
    intro ch0 hm
    exact ha ch0 (by simpa [align_content] using hm)
  case endStop => trivial

/-- What one iteration guarantees about the terminal path: the stream stops
only from the End state, a plain transition never enters End, and an emission
entering End is exactly the EOF token with an empty lexeme. -/
def stepShape (s : LexState) : Step → Prop
  | .stop => s = .endS
  | .next s1 _ => s1 ≠ .endS
  | .emit t s1 _ => s1 = .endS → t.kind = .tokenEOF ∧ t.lexeme = []
  | .crash => True

theorem lexStep_shape (s : LexState) (c : Cursor) : stepShape s (lexStep s c) := by
  have hsc := stepCase_complete s c
  revert hsc
  generalize lexStep s c = st
  intro hsc
  cases hsc <;> first
    | trivial
    | simp [stepShape]

theorem lexRun_not_outOfFuel :
    ∀ n (s : LexState) (c : Cursor), LexInv s c → lexMeasure s c < n →
      lexRun n s c ≠ .outOfFuel := by
  intro n
  induction n with
  | zero => intro s c _ hm; omega
  | succ n ih =>
    intro s c h hm
    have hok := lexStep_ok s c h
    unfold lexRun
    cases hst : lexStep s c with
    | crash => simp
    | stop => simp
    | next s1 c1 =>
      rw [hst] at hok
      exact ih s1 c1 hok.1 (by have := hok.2; omega)
    | emit t s1 c1 =>
      rw [hst] at hok
      have hr := ih s1 c1 hok.1 (by have := hok.2; omega)
      simp only []
      cases hrr : lexRun n s1 c1 <;> simp_all

theorem lexRun_ascii_done :
    ∀ n (s : LexState) (c : Cursor), LexInv s c → AsciiOk c → lexMeasure s c < n →
      ∃ ts, lexRun n s c = .done ts := by
  intro n
  induction n with
  | zero => intro s c _ _ hm; omega
  | succ n ih =>
    intro s c h ha hm
    have hok := lexStep_ok s c h
    have hasc := lexStep_ascii s c h ha
    unfold lexRun
    cases hst : lexStep s c with
    | crash =>
      rw [hst] at hasc
      exact absurd hasc (by simp [stepOkAscii])
    | stop => exact ⟨[], rfl⟩
    | next s1 c1 =>
      rw [hst] at hok hasc
      exact ih s1 c1 hok.1 hasc (by have := hok.2; omega)
    | emit t s1 c1 =>
      rw [hst] at hok hasc
      rcases ih s1 c1 hok.1 hasc (by have := hok.2; omega) with ⟨ts, hts⟩
      refine ⟨t :: ts, ?_⟩
      simp only [hts]

theorem lexRun_last_eof :
    ∀ n (s : LexState) (c : Cursor) ts, lexRun n s c = .done ts → s ≠ .endS →
      ∃ loc, ts.getLast? = some ⟨.tokenEOF, [], loc⟩ := by
  intro n
  induction n with
  | zero => intro s c ts hr _; simp [lexRun] at hr
  | succ n ih =>
    intro s c ts hr hs
    have hsh := lexStep_shape s c
    unfold lexRun at hr
    cases hst : lexStep s c with
    | crash => rw [hst] at hr; simp at hr
    | stop =>
      rw [hst] at hsh
      exact absurd hsh hs
    | next s1 c1 =>
      rw [hst] at hr hsh
      exact ih s1 c1 ts hr hsh
    | emit t s1 c1 =>
      rw [hst] at hr hsh
      simp only [] at hr
      by_cases hend : s1 = .endS
      · subst hend
        have hemit := hsh rfl
        cases hn : lexRun n .endS c1 with
        | crash => rw [hn] at hr; simp at hr
        | outOfFuel => rw [hn] at hr; simp at hr
        | done ts1 =>
          rw [hn] at hr
          simp at hr
          have hts1 : ts1 = [] := by
            cases n with
            | zero => simp [lexRun] at hn
            | succ m =>
              unfold lexRun at hn
              rw [show lexStep .endS c1 = .stop from rfl] at hn
              simpa using hn.symm
          subst hts1
          subst hr
          rcases hemit with ⟨hk, hl⟩
          refine ⟨t.location, ?_⟩
          have ht : t = ⟨.tokenEOF, [], t.location⟩ := by
            cases t
            simp only at hk hl
            simp [hk, hl]
          rw [ht]
          simp
      · cases hn : lexRun n s1 c1 with
        | crash => rw [hn] at hr; simp at hr
        | outOfFuel => rw [hn] at hr; simp at hr
        | done ts1 =>
          rw [hn] at hr
          simp at hr
          rcases ih s1 c1 ts1 hn hend with ⟨loc, hloc⟩
          refine ⟨loc, ?_⟩
          subst hr
          cases ts1 with
          | nil => simp at hloc
          | cons b l =>
            rw [List.getLast?_cons_cons]
            exact hloc

theorem lexInv_init (cs : List Char) : LexInv .start (mkCursor cs) :=
  LexInv.mkStart rfl (by simp [mkCursor]) le_rfl

lemma lexMeasure_init (cs : List Char) :
    lexMeasure .start (mkCursor cs) = 4 * cs.length + 3 := by
  show 2 * ((cs.length - 0) + (cs.length - 0)) + 3 = 4 * cs.length + 3
  omega

/-! ## Classification facts (`TokenKind::from`) -/

lemma matchKeyword_none_of_head_digit {d : Char} {rest : List Char}
    (hd : isAsciiDigit d = true) : matchKeyword (d :: rest) = none := by
  have hne : ∀ (a : Char) (t : List Char), isAsciiDigit a = false →
      ¬ d :: rest = a :: t := by
    intro a t ha he
    rcases List.cons_eq_cons.mp he with ⟨rfl, -⟩
    rw [hd] at ha
    exact absurd ha (by simp)
  unfold matchKeyword
  rw [if_neg (hne 't' _ (by decide)), if_neg (hne 'f' _ (by decide)),
    if_neg (hne 'u' _ (by decide)), if_neg (hne 'i' _ (by decide)),
    if_neg (hne 'f' _ (by decide)), if_neg (hne 'b' _ (by decide)),
    if_neg (hne 's' _ (by decide)), if_neg (hne 'm' _ (by decide)),
    if_neg (hne 'i' _ (by decide)), if_neg (hne 't' _ (by decide)),
    if_neg (hne 'e' _ (by decide)), if_neg (hne 'd' _ (by decide))]

lemma matchSeparator_none_of_head_digit {d : Char} {rest : List Char}
    (hd : isAsciiDigit d = true) : matchSeparator (d :: rest) = none := by
  have hne : ∀ (a : Char) (t : List Char), isAsciiDigit a = false →
      ¬ d :: rest = a :: t := by
    intro a t ha he
    rcases List.cons_eq_cons.mp he with ⟨rfl, -⟩
    rw [hd] at ha
    exact absurd ha (by simp)
  unfold matchSeparator
  rw [if_neg (hne '.' _ (by decide)), if_neg (hne ':' _ (by decide)),
    if_neg (hne ';' _ (by decide)), if_neg (hne '=' _ (by decide)),
    if_neg (hne '\'' _ (by decide)), if_neg (hne '"' _ (by decide)),
    if_neg (hne '(' _ (by decide)), if_neg (hne ')' _ (by decide)),
    if_neg (hne '{' _ (by decide)), if_neg (hne '}' _ (by decide)),
    if_neg (hne '[' _ (by decide)), if_neg (hne ']' _ (by decide)),
    if_neg (hne '_' _ (by decide)), if_neg (hne ',' _ (by decide)),
    if_neg (hne '+' _ (by decide)), if_neg (hne '-' _ (by decide)),
    if_neg (hne '*' _ (by decide)), if_neg (hne '/' _ (by decide)),
    if_neg (hne '-' _ (by decide)), if_neg (hne '=' _ (by decide)),
    if_neg (hne '+' _ (by decide)), if_neg (hne '|' _ (by decide))]

lemma matchKeyword_ne_newline {l : List Char} {k : TokenKind}
    (h : matchKeyword l = some k) : k ≠ .tokenNewLine := by
  unfold matchKeyword at h
  by_cases e1 : l = ['t', 'r', 'u', 'e']
  · rw [if_pos e1] at h
    injection h with h2
    subst h2
    decide
  · rw [if_neg e1] at h
    by_cases e2 : l = ['f', 'a', 'l', 's', 'e']
    · rw [if_pos e2] at h
      injection h with h2
      subst h2
      decide
    · rw [if_neg e2] at h
      by_cases e3 : l = ['u', 'n', 'i', 't']
      · rw [if_pos e3] at h
        injection h with h2
        subst h2
        decide
      · rw [if_neg e3] at h
        by_cases e4 : l = ['i', 'n', 't']
        · rw [if_pos e4] at h
          injection h with h2
          subst h2
          decide
        · rw [if_neg e4] at h
          by_cases e5 : l = ['f', 'l', 'o', 'a', 't']
          · rw [if_pos e5] at h
            injection h with h2
            subst h2
            decide
          · rw [if_neg e5] at h
            by_cases e6 : l = ['b', 'o', 'o', 'l']
            · rw [if_pos e6] at h
              injection h with h2
              subst h2
              decide
            · rw [if_neg e6] at h
              by_cases e7 : l = ['s', 't', 'r']
              · rw [if_pos e7] at h
                injection h with h2
                subst h2
                decide
              · rw [if_neg e7] at h
                by_cases e8 : l = ['m', 'a', 't', 'c', 'h']
                · rw [if_pos e8] at h
                  injection h with h2
                  subst h2
                  decide
                · rw [if_neg e8] at h
                  by_cases e9 : l = ['i', 'f']
                  · rw [if_pos e9] at h
                    injection h with h2
                    subst h2
                    decide
                  · rw [if_neg e9] at h
                    by_cases e10 : l = ['t', 'h', 'e', 'n']
                    · rw [if_pos e10] at h
                      injection h with h2
                      subst h2
                      decide
                    · rw [if_neg e10] at h
                      by_cases e11 : l = ['e', 'l', 's', 'e']
                      · rw [if_pos e11] at h
                        injection h with h2
                        subst h2
                        decide
                      · rw [if_neg e11] at h
                        by_cases e12 : l = ['d', 'a', 't', 'a']
                        · rw [if_pos e12] at h
                          injection h with h2
                          subst h2
                          decide
                        · rw [if_neg e12] at h
                          exact Option.noConfusion h

lemma matchSeparator_ne_newline {l : List Char} {k : TokenKind}
    (h : matchSeparator l = some k) : k ≠ .tokenNewLine := by
  unfold matchSeparator at h
  by_cases e1 : l = ['.']
  · rw [if_pos e1] at h
    injection h with h2
    subst h2
    decide
  · rw [if_neg e1] at h
    by_cases e2 : l = [':']
    · rw [if_pos e2] at h
      injection h with h2
      subst h2
      decide
    · rw [if_neg e2] at h
      by_cases e3 : l = [';']
      · rw [if_pos e3] at h
        injection h with h2
        subst h2
        decide
      · rw [if_neg e3] at h
        by_cases e4 : l = ['=']
        · rw [if_pos e4] at h
          injection h with h2
          subst h2
          decide
        · rw [if_neg e4] at h
          by_cases e5 : l = ['\'']
          · rw [if_pos e5] at h
            injection h with h2
            subst h2
            decide
          · rw [if_neg e5] at h
            by_cases e6 : l = ['"']
            · rw [if_pos e6] at h
              injection h with h2
              subst h2
              decide
            · rw [if_neg e6] at h
              by_cases e7 : l = ['(']
              · rw [if_pos e7] at h
                injection h with h2
                subst h2
                decide
              · rw [if_neg e7] at h
                by_cases e8 : l = [')']
                · rw [if_pos e8] at h
                  injection h with h2
                  subst h2
                  decide
                · rw [if_neg e8] at h
                  by_cases e9 : l = ['{']
                  · rw [if_pos e9] at h
                    injection h with h2
                    subst h2
                    decide
                  · rw [if_neg e9] at h
                    by_cases e10 : l = ['}']
                    · rw [if_pos e10] at h
                      injection h with h2
                      subst h2
                      decide
                    · rw [if_neg e10] at h
                      by_cases e11 : l = ['[']
                      · rw [if_pos e11] at h
                        injection h with h2
                        subst h2
                        decide
                      · rw [if_neg e11] at h
                        by_cases e12 : l = [']']
                        · rw [if_pos e12] at h
                          injection h with h2
                          subst h2
                          decide
                        · rw [if_neg e12] at h
                          by_cases e13 : l = ['_']
                          · rw [if_pos e13] at h
                            injection h with h2
                            subst h2
                            decide
                          · rw [if_neg e13] at h
                            by_cases e14 : l = [',']
                            · rw [if_pos e14] at h
                              injection h with h2
                              subst h2
                              decide
                            · rw [if_neg e14] at h
                              by_cases e15 : l = ['+']
                              · rw [if_pos e15] at h
                                injection h with h2
                                subst h2
                                decide
                              · rw [if_neg e15] at h
                                by_cases e16 : l = ['-']
                                · rw [if_pos e16] at h
                                  injection h with h2
                                  subst h2
                                  decide
                                · rw [if_neg e16] at h
                                  by_cases e17 : l = ['*']
                                  · rw [if_pos e17] at h
                                    injection h with h2
                                    subst h2
                                    decide
                                  · rw [if_neg e17] at h
                                    by_cases e18 : l = ['/']
                                    · rw [if_pos e18] at h
                                      injection h with h2
                                      subst h2
                                      decide
                                    · rw [if_neg e18] at h
                                      by_cases e19 : l = ['-', '>']
                                      · rw [if_pos e19] at h
                                        injection h with h2
                                        subst h2
                                        decide
                                      · rw [if_neg e19] at h
                                        by_cases e20 : l = ['=', '>']
                                        · rw [if_pos e20] at h
                                          injection h with h2
                                          subst h2
                                          decide
                                        · rw [if_neg e20] at h
                                          by_cases e21 : l = ['+', '+']
                                          · rw [if_pos e21] at h
                                            injection h with h2
                                            subst h2
                                            decide
                                          · rw [if_neg e21] at h
                                            by_cases e22 : l = ['|']
                                            · rw [if_pos e22] at h
                                              injection h with h2
                                              subst h2
                                              decide
                                            · rw [if_neg e22] at h
                                              exact Option.noConfusion h

lemma matchNumber_ne_newline {l : List Char} {k : TokenKind}
    (h : matchNumber l = some k) : k ≠ .tokenNewLine := by
  unfold matchNumber at h
  by_cases e1 : l.all isNumericChar = true
  · rw [if_pos e1] at h
    injection h with h2
    subst h2
    decide
  · rw [if_neg e1] at h
    by_cases e2 : l.contains '.' = true
    · rw [if_pos e2] at h
      injection h with h2
      subst h2
      decide
    · rw [if_neg e2] at h
      exact Option.noConfusion h

/-- Classification yields the Newline kind exactly on the one-character
lexeme `"\n"`. -/
lemma tokenKindFrom_eq_newline_iff (l : List Char) :
    tokenKindFrom l = .tokenNewLine ↔ l = ['\n'] := by
  constructor
  · intro h
    by_contra hne
    unfold tokenKindFrom at h
    rw [if_neg hne] at h
    by_cases h2 : l = ['\t']
    · rw [if_pos h2] at h
      exact absurd h (by decide)
    · rw [if_neg h2] at h
      by_cases h3 : l = [' ']
      · rw [if_pos h3] at h
        exact absurd h (by decide)
      · rw [if_neg h3] at h
        cases hk : matchKeyword l with
        | some k =>
          rw [hk] at h
          exact absurd h (matchKeyword_ne_newline hk)
        | none =>
          rw [hk] at h
          cases hs : matchSeparator l with
          | some k =>
            rw [hs] at h
            exact absurd h (matchSeparator_ne_newline hs)
          | none =>
            rw [hs] at h
            cases hn : matchNumber l with
            | some k =>
              rw [hn] at h
              exact absurd h (matchNumber_ne_newline hn)
            | none =>
              rw [hn] at h
              exact absurd h (by decide)
  · intro h
    subst h
    rfl

lemma cons_ne_of_head_digit {d : Char} {rest t : List Char} {a : Char}
    (hd : isAsciiDigit d = true) (ha : isAsciiDigit a = false) :
    ¬ d :: rest = a :: t := by
  intro he
  rcases List.cons_eq_cons.mp he with ⟨rfl, -⟩
  rw [hd] at ha
  exact absurd ha (by simp)

/-- Every all-digit lexeme classifies as the Int literal kind (including the
empty lexeme, whose `all` test is vacuous, exactly as in the source). -/
lemma tokenKindFrom_int (l : List Char) (h : l.all isAsciiDigit = true) :
    tokenKindFrom l = .tokenLiteral .int := by
  cases l with
  | nil => exact tokenKindFrom_nil
  | cons d rest =>
    have hd : isAsciiDigit d = true := by
      simp [List.all_cons] at h
      exact h.1
    have hall : (d :: rest).all isNumericChar = true := by
      simpa [isNumericChar, isAsciiDigit] using h
    unfold tokenKindFrom
    rw [if_neg (cons_ne_of_head_digit hd (by decide)),
      if_neg (cons_ne_of_head_digit hd (by decide)),
      if_neg (cons_ne_of_head_digit hd (by decide)),
      matchKeyword_none_of_head_digit hd, matchSeparator_none_of_head_digit hd]
    unfold matchNumber
    rw [if_pos hall]

/-- Every digit-headed lexeme of digits and dots that contains a decimal point
classifies as the Float literal kind. -/
lemma tokenKindFrom_float (d : Char) (rest : List Char)
    (hd : isAsciiDigit d = true)
    (hdot : '.' ∈ d :: rest) :
    tokenKindFrom (d :: rest) = .tokenLiteral .float := by
  have hnotall : ¬ (d :: rest).all isNumericChar = true := by
    rw [List.all_eq_true]
    intro hfa
    have := hfa '.' hdot
    exact absurd this (by decide)
  have hcont : (d :: rest).contains '.' = true := by
    rw [List.contains_eq_any_beq]
    rw [List.any_eq_true]
    exact ⟨'.', hdot, by simp⟩
  unfold tokenKindFrom
  rw [if_neg (cons_ne_of_head_digit hd (by decide)),
    if_neg (cons_ne_of_head_digit hd (by decide)),
    if_neg (cons_ne_of_head_digit hd (by decide)),
    matchKeyword_none_of_head_digit hd, matchSeparator_none_of_head_digit hd]
  unfold matchNumber
  rw [if_neg hnotall, if_pos hcont]

/-- The fallback order of `TokenKind::from`: after the three single-character
whitespace lexemes, the keyword table wins, then the separator table, then the
numeric test, then identifier. -/
lemma tokenKindFrom_order (l : List Char)
    (h1 : l ≠ ['\n']) (h2 : l ≠ ['\t']) (h3 : l ≠ [' ']) :
    (∀ k, matchKeyword l = some k → tokenKindFrom l = k) ∧
    (∀ k, matchKeyword l = none → matchSeparator l = some k → tokenKindFrom l = k) ∧
    (∀ k, matchKeyword l = none → matchSeparator l = none →
      matchNumber l = some k → tokenKindFrom l = k) ∧
    (matchKeyword l = none → matchSeparator l = none → matchNumber l = none →
      tokenKindFrom l = .tokenIdentifier) := by
  refine ⟨?_, ?_, ?_, ?_⟩
  · intro k hk
    unfold tokenKindFrom
    rw [if_neg h1, if_neg h2, if_neg h3, hk]
  · intro k hk hs
    unfold tokenKindFrom
    rw [if_neg h1, if_neg h2, if_neg h3, hk, hs]
  · intro k hk hs hn
    unfold tokenKindFrom
    rw [if_neg h1, if_neg h2, if_neg h3, hk, hs, hn]
  · intro hk hs hn
    unfold tokenKindFrom
    rw [if_neg h1, if_neg h2, if_neg h3, hk, hs, hn]

/-! ## Location bookkeeping across emissions (for the position claims) -/

lemma head?_take_pos (l : List Char) {n : Nat} (hn : 0 < n) :
    (l.take n).head? = l.head? := by
  cases l with
  | nil => simp
  | cons a t =>
    match n, hn with
    | m + 1, _ => simp

/-- The first character of an ASCII slice `content[i..j]` (as a list) is the
character at position `i`. -/
lemma slice_head {cs lexeme : List Char} {i j : Nat}
    (ha : ∀ ch ∈ cs, ch.toNat < 128) (hij : i < j) (hj : j ≤ cs.length)
    (hsl : sliceBytes cs i j = some lexeme) :
    lexeme.head? = cs[i]? := by
  rw [sliceBytes_of_ascii ha (by omega) hj] at hsl
  injection hsl with hsl
  subst hsl
  rw [head?_take_pos _ (by omega), List.head?_drop]

lemma slice_eq_of_ascii {cs lexeme : List Char} {i j : Nat}
    (ha : ∀ ch ∈ cs, ch.toNat < 128) (hij : i ≤ j) (hj : j ≤ cs.length)
    (hsl : sliceBytes cs i j = some lexeme) :
    lexeme = (cs.drop i).take (j - i) := by
  rw [sliceBytes_of_ascii ha hij hj] at hsl
  injection hsl with hsl
  exact hsl.symm

lemma slice_length {cs lexeme : List Char} {i j : Nat}
    (ha : ∀ ch ∈ cs, ch.toNat < 128) (hij : i ≤ j) (hj : j ≤ cs.length)
    (hsl : sliceBytes cs i j = some lexeme) :
    lexeme.length = j - i := by
  rw [slice_eq_of_ascii ha hij hj hsl]
  rw [List.length_take, List.length_drop]
  omega

/-- What an emission guarantees about the cursor it leaves behind: after a
Newline token the cursor sits at column 0 on the next line; after any other
token the cursor's `column_start` equals the token's `column_end` on the same
line. -/
def stepOkLoc : Step → Prop
  | .emit t _ c1 =>
      (t.kind = .tokenNewLine →
        c1.location.line = t.location.line + 1 ∧ c1.location.columnStart = 0) ∧
      (t.kind ≠ .tokenNewLine →
        c1.location.line = t.location.line ∧
        c1.location.columnStart = t.location.columnEnd)
  | _ => True

theorem lexStep_loc (s : LexState) (c : Cursor) (h : LexInv s c)
    (ha : AsciiOk c) : stepOkLoc (lexStep s c) := by
  have hsc := stepCase_complete s c
  revert hsc
  generalize lexStep s c = st
  intro hsc
  cases hsc
  case startOther ch h1 h2 h3 h4 h5 h6 h7 hp =>
    exact ⟨fun hk => absurd hk (by simp), fun _ => ⟨rfl, rfl⟩⟩
  case strClose lexeme hp hsl =>
    exact ⟨fun hk => absurd hk (by simp), fun _ => ⟨rfl, rfl⟩⟩
  case comEmit lexeme hstop hsl =>
    exact ⟨fun hk => absurd hk (by simp), fun _ => ⟨rfl, rfl⟩⟩
  case numEmit lexeme hstop hsl =>
    have hlt := h.hmid (by simp)
    have hoff := h.hoff (by simp) (by simp)
    have hknl : tokenKindFrom lexeme ≠ .tokenNewLine := by
      rw [Ne, tokenKindFrom_eq_newline_iff]
      intro hL
      rcases h.hnumHead rfl with ⟨d, hcd, hdd⟩
      have := slice_head ha hlt hoff hsl
      rw [hL] at this
      simp at this
      rw [hcd] at this
      injection this with this
      subst this
      exact absurd hdd (by decide)
    exact ⟨fun hk => absurd hk hknl, fun _ => ⟨rfl, rfl⟩⟩
  case wordEmit lexeme hstop hsl =>
    have hlt := h.hmid (by simp)
    have hoff := h.hoff (by simp) (by simp)
    have hknl : tokenKindFrom lexeme ≠ .tokenNewLine := by
      rw [Ne, tokenKindFrom_eq_newline_iff]
      intro hL
      rcases h.hwordHead rfl with ⟨d, hcd, hdd⟩
      have := slice_head ha hlt hoff hsl
      rw [hL] at this
      simp at this
      rw [hcd] at this
      injection this with this
      subst this
      rcases hdd with hdd | hdd
      · exact absurd hdd (by decide)
      · exact absurd hdd (by decide)
    exact ⟨fun hk => absurd hk hknl, fun _ => ⟨rfl, rfl⟩⟩
  case symNlAssign lexeme hk hp hsl =>
    exact ⟨fun hknl => absurd (hk.symm.trans hknl) (by decide), fun _ => ⟨rfl, rfl⟩⟩
  case symNlNewline lexeme hk hp hsl =>
    have hne := peek_some_not_eof hp
    refine ⟨fun _ => ?_, fun hknl => absurd rfl hknl⟩
    rw [newLine_of_not_eof hne]
    exact ⟨rfl, rfl⟩
  case symGlue ch h1 h2 hp => trivial
  case symMerge ch lexeme h1 h2 h3 hp hsl =>
    have holt := peek_some_offset_lt hp
    have hio := h.hio
    have hknl : tokenKindFrom lexeme ≠ .tokenNewLine := by
      rw [Ne, tokenKindFrom_eq_newline_iff]
      intro hL
      by_cases hio2 : c.index < c.offset
      · have hlen := slice_length ha (by omega) (by omega) hsl
        rw [hL] at hlen
        simp at hlen
        omega
      · have hieq : c.index = c.offset := by omega
        rcases peek_eq_some hp with ⟨-, hpk⟩
        have := slice_head ha (by omega) (by omega) hsl
        rw [hL] at this
        simp at this
        rw [hieq, hpk] at this
        injection this with this
        exact absurd this.symm h1
    exact ⟨fun hk => absurd hk hknl, fun _ => ⟨rfl, rfl⟩⟩
  case symOther ch lexeme h1 h2 h3 hp hsl =>
    have hlt : c.index < c.offset := by
      rcases h.hsymp rfl with hlt | ⟨ch0, hp0, hs0⟩
      · exact hlt
      · rw [hp] at hp0
        injection hp0 with hch0
        subst hch0
        exact absurd hs0 h3
    have hoff := h.hoff (by simp) (by simp)
    have hknl : tokenKindFrom lexeme ≠ .tokenNewLine := by
      rw [Ne, tokenKindFrom_eq_newline_iff]
      intro hL
      rcases h.hsymHead rfl hlt with ⟨d, hcd, hdd⟩
      have := slice_head ha hlt hoff hsl
      rw [hL] at this
      simp at this
      rw [hcd] at this
      injection this with this
      subst this
      exact absurd hdd (by decide)
    exact ⟨fun hk => absurd hk hknl, fun _ => ⟨rfl, rfl⟩⟩
  case eofEmit =>
    exact ⟨fun hk => absurd hk (by simp), fun _ => ⟨rfl, rfl⟩⟩
  all_goals trivial

/-- Before the next emission, the cursor's line never changes and its
`column_start` never decreases; the emitted token snapshots the cursor. -/
def stepOkFirst (c : Cursor) : Step → Prop
  | .next _ c1 =>
      c1.location.line = c.location.line ∧
      c.location.columnStart ≤ c1.location.columnStart
  | .emit t _ _ =>
      t.location.line = c.location.line ∧
      c.location.columnStart ≤ t.location.columnStart
  | _ => True

theorem lexStep_first (s : LexState) (c : Cursor) (h : LexInv s c) :
    stepOkFirst c (lexStep s c) := by
  have hcl := h.hcol
  have hsc := stepCase_complete s c
  revert hsc
  generalize lexStep s c = st
  intro hsc
  cases hsc
  case startWs ch hch hp =>
    have hne := peek_some_not_eof hp
    rw [consume_of_not_eof hne]
    exact ⟨rfl, by simp⟩
  case startCr c1 hp hrm =>
    unfold Cursor.removeCarriageReturn at hrm
    rcases Option.map_eq_some'.mp hrm with ⟨m, hm0, rfl⟩
    exact ⟨rfl, le_rfl⟩
  case startQuote hp =>
    have hne := peek_some_not_eof hp
    rw [advanceOffset_of_not_eof hne]
    exact ⟨rfl, le_rfl⟩
  case startAlpha ch hch hp =>
    have hne := peek_some_not_eof hp
    rw [advanceOffset_of_not_eof hne]
    exact ⟨rfl, le_rfl⟩
  case startSym ch hna hs hp => exact ⟨rfl, le_rfl⟩
  case startHash hp =>
    have hne := peek_some_not_eof hp
    rw [advanceOffset_of_not_eof hne]
    exact ⟨rfl, le_rfl⟩
  case startDigit ch hd hp =>
    have hne := peek_some_not_eof hp
    rw [advanceOffset_of_not_eof hne]
    exact ⟨rfl, le_rfl⟩
  case startOther ch h1 h2 h3 h4 h5 h6 h7 hp =>
    have hne := peek_some_not_eof hp
    rw [advanceOffset_of_not_eof hne]
    exact ⟨rfl, le_rfl⟩
  case startEof hp =>
    by_cases he : c.isEof = true
    · rw [consume_of_eof he]
      exact ⟨rfl, le_rfl⟩
    · have hne : c.isEof = false := by
        revert he
        cases c.isEof <;> simp
      rw [consume_of_not_eof hne]
      exact ⟨rfl, by simp⟩
  case strAdv ch hch hp =>
    have hne := peek_some_not_eof hp
    rw [advanceOffset_of_not_eof hne]
    exact ⟨rfl, le_rfl⟩
  case strClose lexeme hp hsl =>
    have hne := peek_some_not_eof hp
    rw [advanceOffset_of_not_eof hne]
    exact ⟨rfl, le_rfl⟩
  case strEof hp =>
    by_cases he : c.isEof = true
    · rw [consume_of_eof he]
      exact ⟨rfl, le_rfl⟩
    · have hne : c.isEof = false := by
        revert he
        cases c.isEof <;> simp
      rw [consume_of_not_eof hne]
      exact ⟨rfl, by simp⟩
  case comAdv ch hch hp =>
    have hne := peek_some_not_eof hp
    rw [advanceOffset_of_not_eof hne]
    exact ⟨rfl, le_rfl⟩
  case comEmit lexeme hstop hsl => exact ⟨rfl, le_rfl⟩
  case numAdv ch hch hp =>
    have hne := peek_some_not_eof hp
    rw [advanceOffset_of_not_eof hne]
    exact ⟨rfl, le_rfl⟩
  case numEmit lexeme hstop hsl => exact ⟨rfl, le_rfl⟩
  case wordAdv ch hch hp =>
    have hne := peek_some_not_eof hp
    rw [advanceOffset_of_not_eof hne]
    exact ⟨rfl, le_rfl⟩
  case wordEmit lexeme hstop hsl => exact ⟨rfl, le_rfl⟩
  case symNlAssign lexeme hk hp hsl => exact ⟨rfl, le_rfl⟩
  case symNlNewline lexeme hk hp hsl => exact ⟨rfl, le_rfl⟩
  case symGlue ch h1 h2 hp =>
    have hne := peek_some_not_eof hp
    rw [advanceOffset_of_not_eof hne]
    exact ⟨rfl, le_rfl⟩
  case symMerge ch lexeme h1 h2 h3 hp hsl =>
    have hne := peek_some_not_eof hp
    rw [advanceOffset_of_not_eof hne]
    exact ⟨rfl, le_rfl⟩
  case symOther ch lexeme h1 h2 h3 hp hsl => exact ⟨rfl, le_rfl⟩
  case symEof hp =>
    by_cases he : c.isEof = true
    · rw [consume_of_eof he]
      exact ⟨rfl, le_rfl⟩
    · have hne : c.isEof = false := by
        revert he
        cases c.isEof <;> simp
      rw [consume_of_not_eof hne]
      exact ⟨rfl, by simp⟩
  case eofEmit =>
    refine ⟨rfl, ?_⟩
    rw [align_explicit]
    exact hcl
  all_goals trivial

/-- The first token of a completed run starts on the cursor's current line at
or after the cursor's current `column_start`. -/
theorem lexRun_first_tok :
    ∀ n (s : LexState) (c : Cursor) t ts, LexInv s c →
      lexRun n s c = .done (t :: ts) →
      t.location.line = c.location.line ∧
      c.location.columnStart ≤ t.location.columnStart := by
  intro n
  induction n with
  | zero => intro s c t ts _ hr; simp [lexRun] at hr
  | succ n ih =>
    intro s c t ts h hr
    have hok := lexStep_ok s c h
    have hfst := lexStep_first s c h
    unfold lexRun at hr
    cases hst : lexStep s c with
    | crash => rw [hst] at hr; simp at hr
    | stop => rw [hst] at hr; simp at hr
    | next s1 c1 =>
      rw [hst] at hr hok hfst
      rcases ih s1 c1 t ts hok.1 hr with ⟨hl, hc⟩
      exact ⟨hl.trans hfst.1, le_trans hfst.2 hc⟩
    | emit t0 s1 c1 =>
      rw [hst] at hr hok hfst
      simp only [] at hr
      cases hrr : lexRun n s1 c1 with
      | crash => rw [hrr] at hr; simp at hr
      | outOfFuel => rw [hrr] at hr; simp at hr
      | done ts1 =>
        rw [hrr] at hr
        simp at hr
        rcases hr with ⟨rfl, -⟩
        exact hfst

/-- The adjacency property of consecutive tokens: crossing a Newline token
increments the line by exactly one; otherwise the line is unchanged and the
successor starts at or after the predecessor's end column (equality when no
whitespace was skipped in between). -/
def adjOK (t1 t2 : Token) : Prop :=
  (t1.kind = .tokenNewLine → t2.location.line = t1.location.line + 1) ∧
  (t1.kind ≠ .tokenNewLine →
    t2.location.line = t1.location.line ∧
    t1.location.columnEnd ≤ t2.location.columnStart)

theorem lexRun_chain :
    ∀ n (s : LexState) (c : Cursor) ts, LexInv s c → AsciiOk c →
      lexRun n s c = .done ts → List.Chain' adjOK ts := by
  intro n
  induction n with
  | zero => intro s c ts _ _ hr; simp [lexRun] at hr
  | succ n ih =>
    intro s c ts h ha hr
    have hok := lexStep_ok s c h
    have hasc := lexStep_ascii s c h ha
    have hloc := lexStep_loc s c h ha
    unfold lexRun at hr
    cases hst : lexStep s c with
    | crash => rw [hst] at hr; simp at hr
    | stop =>
      rw [hst] at hr
      simp at hr
      subst hr
      exact List.chain'_nil
    | next s1 c1 =>
      rw [hst] at hr hok hasc
      exact ih s1 c1 ts hok.1 hasc hr
    | emit t0 s1 c1 =>
      rw [hst] at hr hok hasc hloc
      simp only [] at hr
      cases hrr : lexRun n s1 c1 with
      | crash => rw [hrr] at hr; simp at hr
      | outOfFuel => rw [hrr] at hr; simp at hr
      | done ts1 =>
        rw [hrr] at hr
        simp at hr
        subst hr
        refine List.chain'_cons'.mpr ⟨?_, ih s1 c1 ts1 hok.1 hasc hrr⟩
        intro t2 ht2
        cases ts1 with
        | nil => simp at ht2
        | cons tb rest =>
          simp at ht2
          subst ht2
          rcases lexRun_first_tok n s1 c1 tb rest hok.1 hrr with ⟨hl2, hc2⟩
          by_cases hk : t0.kind = .tokenNewLine
          · rcases hloc.1 hk with ⟨hl1, hc1⟩
            refine ⟨fun _ => ?_, fun hne => absurd hk hne⟩
            rw [hl2, hl1]
          · rcases hloc.2 hk with ⟨hl1, hc1⟩
            refine ⟨fun hkk => absurd hkk hk, fun _ => ⟨?_, ?_⟩⟩
            · rw [hl2, hl1]
            · rw [← hc1]
              exact hc2

/-! ## Lexeme tiling (the round-trip property on the plain alphabet) -/

lemma isEof_iff (c : Cursor) : c.isEof = true ↔ byteLen c.content ≤ c.index := by
  simp [Cursor.isEof]

lemma peek_none_cases {c : Cursor} (ha : AsciiOk c) (hp : c.peek = none) :
    c.content.length ≤ c.index ∨ c.content.length ≤ c.offset := by
  unfold Cursor.peek at hp
  by_cases he : c.isEof = true
  · left
    rw [isEof_iff] at he
    rwa [byteLen_of_ascii ha] at he
  · have hne : c.isEof = false := by
      revert he
      cases c.isEof <;> simp
    rw [hne] at hp
    simp at hp
    right
    exact hp

lemma slice_tile (cs : List Char) (i j : Nat) (hij : i ≤ j) (_hj : j ≤ cs.length) :
    (cs.drop i).take (j - i) ++ cs.drop j = cs.drop i := by
  rw [show cs.drop j = (cs.drop i).drop (j - i) by
    rw [List.drop_drop]
    congr 1
    omega]
  exact List.take_append_drop _ _

/-- A character the lexer can tile exactly: ASCII and none of the characters
whose handling discards or rewrites text (space and tab are skipped, CR is
removed, LF is emitted as the literal two-character lexeme, a double quote
opens a string whose unterminated tail is discarded). -/
def plainChar (ch : Char) : Bool :=
  decide (ch.toNat < 128) &&
    !(ch = ' ' || ch = '\t' || ch = '\n' || ch = '\r' || ch = '"')

/-- The input does not end inside a pending multi-character symbol (a trailing
`-`, `=` or `+` run is dropped at end of input). -/
def noGlueTail (cs : List Char) : Bool :=
  match cs.getLast? with
  | none => true
  | some ch => !canFollowSymbol ch

/-- The inputs for which lexeme concatenation reproduces the text exactly. -/
def PlainInput (cs : List Char) : Bool := cs.all plainChar && noGlueTail cs

lemma plainChar_ascii {ch : Char} (h : plainChar ch = true) : ch.toNat < 128 := by
  unfold plainChar at h
  simp at h
  exact h.1

lemma plainChar_not {ch : Char} (h : plainChar ch = true) :
    ch ≠ ' ' ∧ ch ≠ '\t' ∧ ch ≠ '\n' ∧ ch ≠ '\r' ∧ ch ≠ '"' := by
  refine ⟨?_, ?_, ?_, ?_, ?_⟩ <;> (intro he; subst he; exact absurd h (by decide))

/-- The run invariant for tiling: plain content with no trailing glue, the
String state unreachable, a pending symbol always followed by some later
non-glue character, and the terminal states only entered at end of text. -/
structure TileInv (s : LexState) (c : Cursor) : Prop where
  hplain : ∀ ch ∈ c.content, plainChar ch = true
  htail : noGlueTail c.content = true
  hstr : s ≠ .strL
  hsym : s = .symbol → c.index < c.offset →
    ∃ k, c.offset ≤ k ∧ k < c.content.length ∧
      ∃ ch, c.content[k]? = some ch ∧ canFollowSymbol ch = false
  heof : s = .eofS → c.content.length ≤ c.index
  hend : s = .endS → c.content.length ≤ c.index

lemma TileInv.ascii {s : LexState} {c : Cursor} (h : TileInv s c) : AsciiOk c :=
  fun ch hm => plainChar_ascii (h.hplain ch hm)

theorem lexRun_tiles :
    ∀ n (s : LexState) (c : Cursor) ts, LexInv s c → TileInv s c →
      lexRun n s c = .done ts →
      (ts.map Token.lexeme).flatten = c.content.drop c.index := by
  intro n
  induction n with
  | zero => intro s c ts _ _ hr; simp [lexRun] at hr
  | succ n ih =>
    intro s c ts hI hT hr
    have ha : AsciiOk c := hT.ascii
    have hok := lexStep_ok s c hI
    unfold lexRun at hr
    have hsc := stepCase_complete s c
    revert hr hok
    generalize hst : lexStep s c = st
    rw [hst] at hsc
    intro hok hr
    cases hsc
    case startWs ch hch hp =>
      have := plainChar_not (hT.hplain ch (peek_some_mem hp))
      rcases hch with rfl | rfl
      · exact absurd rfl this.1
      · exact absurd rfl this.2.1
    case startCr c1 hp hrm =>
      have := plainChar_not (hT.hplain '\r' (peek_some_mem hp))
      exact absurd rfl this.2.2.2.1
    case startCrCrash hp hrm =>
      have := plainChar_not (hT.hplain '\r' (peek_some_mem hp))
      exact absurd rfl this.2.2.2.1
    case startQuote hp =>
      have := plainChar_not (hT.hplain '"' (peek_some_mem hp))
      exact absurd rfl this.2.2.2.2
    case startAlpha ch hch hp =>
      simp only [] at hr
      have hne := peek_some_not_eof hp
      have h1 := ih .word c.advanceOffset ts hok.1
        ⟨by rw [advanceOffset_content]; exact hT.hplain,
         by rw [advanceOffset_content]; exact hT.htail,
         by simp, by intro hx; simp at hx, by intro hx; simp at hx,
         by intro hx; simp at hx⟩ hr
      rwa [advanceOffset_content, advanceOffset_index] at h1
    case startSym ch hna hs hp =>
      simp only [] at hr
      have hieq := hI.hstart rfl
      exact ih .symbol c ts hok.1
        ⟨hT.hplain, hT.htail, by simp,
         fun _ hlt => absurd hlt (by omega),
         by intro hx; simp at hx, by intro hx; simp at hx⟩ hr
    case startHash hp =>
      simp only [] at hr
      have h1 := ih .comment c.advanceOffset ts hok.1
        ⟨by rw [advanceOffset_content]; exact hT.hplain,
         by rw [advanceOffset_content]; exact hT.htail,
         by simp, by intro hx; simp at hx, by intro hx; simp at hx,
         by intro hx; simp at hx⟩ hr
      rwa [advanceOffset_content, advanceOffset_index] at h1
    case startDigit ch hd hp =>
      simp only [] at hr
      have h1 := ih .number c.advanceOffset ts hok.1
        ⟨by rw [advanceOffset_content]; exact hT.hplain,
         by rw [advanceOffset_content]; exact hT.htail,
         by simp, by intro hx; simp at hx, by intro hx; simp at hx,
         by intro hx; simp at hx⟩ hr
      rwa [advanceOffset_content, advanceOffset_index] at h1
    case startOther ch h1 h2 h3 h4 h5 h6 h7 hp =>
      simp only [] at hr
      cases hrr : lexRun n .start ((c.advanceOffset).align) with
      | crash => rw [hrr] at hr; simp at hr
      | outOfFuel => rw [hrr] at hr; simp at hr
      | done ts1 =>
        rw [hrr] at hr
        simp at hr
        subst hr
        have hne := peek_some_not_eof hp
        have holt := peek_some_offset_lt hp
        have hieq := hI.hstart rfl
        have htile := ih .start ((c.advanceOffset).align) ts1 hok.1
          ⟨by rw [align_content, advanceOffset_content]; exact hT.hplain,
           by rw [align_content, advanceOffset_content]; exact hT.htail,
           by simp, by intro hx; simp at hx, by intro hx; simp at hx,
           by intro hx; simp at hx⟩ hrr
        rw [align_content, advanceOffset_content] at htile
        rw [align_index, advanceOffset_offset_of_not_eof hne] at htile
        simp only [List.map_cons, List.flatten_cons]
        rw [htile]
        have hpk := (peek_eq_some hp).2
        rw [hieq]
        rw [List.drop_eq_getElem_cons (by omega : c.offset < c.content.length)]
        have : c.content[c.offset] = ch := by
          have := List.getElem?_eq_some.mp hpk
          rcases this with ⟨hcw, hv⟩
          exact hv
        simp [this]
    case startEof hp =>
      simp only [] at hr
      have hieq := hI.hstart rfl
      have hlen : c.content.length ≤ c.index := by
        rcases peek_none_cases ha hp with hx | hx
        · exact hx
        · omega
      have he : c.isEof = true := by
        rw [isEof_iff, byteLen_of_ascii ha]
        exact hlen
      rw [consume_of_eof he] at hr hok
      exact ih .eofS c ts hok.1
        ⟨hT.hplain, hT.htail, by simp, by intro hx; simp at hx,
         fun _ => hlen, by intro hx; simp at hx⟩ hr
    case strAdv ch hch hp => exact absurd rfl hT.hstr
    case strClose lexeme hp hsl => exact absurd rfl hT.hstr
    case strCloseCrash hp hsl => exact absurd rfl hT.hstr
    case strEof hp => exact absurd rfl hT.hstr
    case comAdv ch hch hp =>
      simp only [] at hr
      have h1 := ih .comment c.advanceOffset ts hok.1
        ⟨by rw [advanceOffset_content]; exact hT.hplain,
         by rw [advanceOffset_content]; exact hT.htail,
         by simp, by intro hx; simp at hx, by intro hx; simp at hx,
         by intro hx; simp at hx⟩ hr
      rwa [advanceOffset_content, advanceOffset_index] at h1
    case comEmit lexeme hstop hsl =>
      simp only [] at hr
      cases hrr : lexRun n .start (c.align) with
      | crash => rw [hrr] at hr; simp at hr
      | outOfFuel => rw [hrr] at hr; simp at hr
      | done ts1 =>
        rw [hrr] at hr
        simp at hr
        subst hr
        have hlt := hI.hmid (by simp)
        have hoff := hI.hoff (by simp) (by simp)
        have htile := ih .start (c.align) ts1 hok.1
          ⟨hT.hplain, hT.htail, by simp, by intro hx; simp at hx,
           by intro hx; simp at hx, by intro hx; simp at hx⟩ hrr
        rw [align_content, align_index] at htile
        simp only [List.map_cons, List.flatten_cons]
        rw [htile, slice_eq_of_ascii ha (by omega) hoff hsl]
        exact slice_tile c.content c.index c.offset (by omega) hoff
    case comCrash hstop hsl => simp at hr
    case numAdv ch hch hp =>
      simp only [] at hr
      have h1 := ih .number c.advanceOffset ts hok.1
        ⟨by rw [advanceOffset_content]; exact hT.hplain,
         by rw [advanceOffset_content]; exact hT.htail,
         by simp, by intro hx; simp at hx, by intro hx; simp at hx,
         by intro hx; simp at hx⟩ hr
      rwa [advanceOffset_content, advanceOffset_index] at h1
    case numEmit lexeme hstop hsl =>
      simp only [] at hr
      cases hrr : lexRun n .start (c.align) with
      | crash => rw [hrr] at hr; simp at hr
      | outOfFuel => rw [hrr] at hr; simp at hr
      | done ts1 =>
        rw [hrr] at hr
        simp at hr
        subst hr
        have hlt := hI.hmid (by simp)
        have hoff := hI.hoff (by simp) (by simp)
        have htile := ih .start (c.align) ts1 hok.1
          ⟨hT.hplain, hT.htail, by simp, by intro hx; simp at hx,
           by intro hx; simp at hx, by intro hx; simp at hx⟩ hrr
        rw [align_content, align_index] at htile
        simp only [List.map_cons, List.flatten_cons]
        rw [htile, slice_eq_of_ascii ha (by omega) hoff hsl]
        exact slice_tile c.content c.index c.offset (by omega) hoff
    case numCrash hstop hsl => simp at hr
    case wordAdv ch hch hp =>
      simp only [] at hr
      have h1 := ih .word c.advanceOffset ts hok.1
        ⟨by rw [advanceOffset_content]; exact hT.hplain,
         by rw [advanceOffset_content]; exact hT.htail,
         by simp, by intro hx; simp at hx, by intro hx; simp at hx,
         by intro hx; simp at hx⟩ hr
      rwa [advanceOffset_content, advanceOffset_index] at h1
    case wordEmit lexeme hstop hsl =>
      simp only [] at hr
      cases hrr : lexRun n .start (c.align) with
      | crash => rw [hrr] at hr; simp at hr
      | outOfFuel => rw [hrr] at hr; simp at hr
      | done ts1 =>
        rw [hrr] at hr
        simp at hr
        subst hr
        have hlt := hI.hmid (by simp)
        have hoff := hI.hoff (by simp) (by simp)
        have htile := ih .start (c.align) ts1 hok.1
          ⟨hT.hplain, hT.htail, by simp, by intro hx; simp at hx,
           by intro hx; simp at hx, by intro hx; simp at hx⟩ hrr
        rw [align_content, align_index] at htile
        simp only [List.map_cons, List.flatten_cons]
        rw [htile, slice_eq_of_ascii ha (by omega) hoff hsl]
        exact slice_tile c.content c.index c.offset (by omega) hoff
    case wordCrash hstop hsl => simp at hr
    case symNlAssign lexeme hk hp hsl =>
      have := plainChar_not (hT.hplain '\n' (peek_some_mem hp))
      exact absurd rfl this.2.2.1
    case symNlNewline lexeme hk hp hsl =>
      have := plainChar_not (hT.hplain '\n' (peek_some_mem hp))
      exact absurd rfl this.2.2.1
    case symNlCrash hp hsl =>
      have := plainChar_not (hT.hplain '\n' (peek_some_mem hp))
      exact absurd rfl this.2.2.1
    case symGlue ch h1 h2 hp =>
      simp only [] at hr
      have hne := peek_some_not_eof hp
      have holt := peek_some_offset_lt hp
      have hio := hI.hio
      have hpk := (peek_eq_some hp).2
      have hcne : c.content ≠ [] := by
        intro hx
        rw [hx] at holt
        simp at holt
      have hlast : ∃ chL, c.content.getLast? = some chL ∧ canFollowSymbol chL = false := by
        cases hg : c.content.getLast? with
        | none =>
          rw [List.getLast?_eq_none_iff] at hg
          exact absurd hg hcne
        | some chL =>
          refine ⟨chL, rfl, ?_⟩
          have := hT.htail
          unfold noGlueTail at this
          rw [hg] at this
          simpa using this
      have hnew : ∀ hlt : c.index < c.offset + 1,
          ∃ k, c.offset + 1 ≤ k ∧ k < c.content.length ∧
            ∃ ch0, c.content[k]? = some ch0 ∧ canFollowSymbol ch0 = false := by
        intro _
        by_cases hio2 : c.index < c.offset
        · rcases hT.hsym rfl hio2 with ⟨k, hk1, hk2, ch0, hck, hcf⟩
          have hkne : k ≠ c.offset := by
            intro hx
            subst hx
            rw [hpk] at hck
            injection hck with hck
            subst hck
            rw [h2] at hcf
            exact absurd hcf (by simp)
          exact ⟨k, by omega, hk2, ch0, hck, hcf⟩
        · rcases hlast with ⟨chL, hgl, hcfl⟩
          rw [List.getLast?_eq_getElem?] at hgl
          have hlpos : 0 < c.content.length := by
            cases hc : c.content with
            | nil => exact absurd hc hcne
            | cons a t => simp [hc]
          have hone : c.offset ≠ c.content.length - 1 := by
            intro hx
            rw [← hx] at hgl
            rw [hpk] at hgl
            injection hgl with hgl
            subst hgl
            rw [h2] at hcfl
            exact absurd hcfl (by simp)
          exact ⟨c.content.length - 1, by omega, by omega, chL, hgl, hcfl⟩
      have h1 := ih .symbol c.advanceOffset ts hok.1
        ⟨by rw [advanceOffset_content]; exact hT.hplain,
         by rw [advanceOffset_content]; exact hT.htail,
         by simp,
         by
           intro _ hlt
           rw [advanceOffset_content]
           rw [advanceOffset_index] at hlt
           rw [advanceOffset_offset_of_not_eof hne] at hlt ⊢
           exact hnew hlt,
         by intro hx; simp at hx, by intro hx; simp at hx⟩ hr
      rwa [advanceOffset_content, advanceOffset_index] at h1
    case symMerge ch lexeme h1 h2 h3 hp hsl =>
      simp only [] at hr
      cases hrr : lexRun n .start ((c.advanceOffset).align) with
      | crash => rw [hrr] at hr; simp at hr
      | outOfFuel => rw [hrr] at hr; simp at hr
      | done ts1 =>
        rw [hrr] at hr
        simp at hr
        subst hr
        have hne := peek_some_not_eof hp
        have holt := peek_some_offset_lt hp
        have hio := hI.hio
        have htile := ih .start ((c.advanceOffset).align) ts1 hok.1
          ⟨by rw [align_content, advanceOffset_content]; exact hT.hplain,
           by rw [align_content, advanceOffset_content]; exact hT.htail,
           by simp, by intro hx; simp at hx, by intro hx; simp at hx,
           by intro hx; simp at hx⟩ hrr
        rw [align_content, advanceOffset_content] at htile
        rw [align_index, advanceOffset_offset_of_not_eof hne] at htile
        simp only [List.map_cons, List.flatten_cons]
        rw [htile, slice_eq_of_ascii ha (by omega) (by omega) hsl]
        exact slice_tile c.content c.index (c.offset + 1) (by omega) (by omega)
    case symMergeCrash ch h1 h2 h3 hp hsl => simp at hr
    case symOther ch lexeme h1 h2 h3 hp hsl =>
      simp only [] at hr
      cases hrr : lexRun n .start (c.align) with
      | crash => rw [hrr] at hr; simp at hr
      | outOfFuel => rw [hrr] at hr; simp at hr
      | done ts1 =>
        rw [hrr] at hr
        simp at hr
        subst hr
        have hio := hI.hio
        have hoff := hI.hoff (by simp) (by simp)
        have htile := ih .start (c.align) ts1 hok.1
          ⟨hT.hplain, hT.htail, by simp, by intro hx; simp at hx,
           by intro hx; simp at hx, by intro hx; simp at hx⟩ hrr
        rw [align_content, align_index] at htile
        simp only [List.map_cons, List.flatten_cons]
        rw [htile, slice_eq_of_ascii ha (by omega) hoff hsl]
        exact slice_tile c.content c.index c.offset (by omega) hoff
    case symOtherCrash ch h1 h2 h3 hp hsl => simp at hr
    case symEof hp =>
      simp only [] at hr
      have hio := hI.hio
      have hlen : c.content.length ≤ c.index := by
        rcases peek_none_cases ha hp with hx | hx
        · exact hx
        · by_cases hio2 : c.index < c.offset
          · rcases hT.hsym rfl hio2 with ⟨k, hk1, hk2, -⟩
            omega
          · omega
      have he : c.isEof = true := by
        rw [isEof_iff, byteLen_of_ascii ha]
        exact hlen
      rw [consume_of_eof he] at hr hok
      exact ih .eofS c ts hok.1
        ⟨hT.hplain, hT.htail, by simp, by intro hx; simp at hx,
         fun _ => hlen, by intro hx; simp at hx⟩ hr
    case eofEmit =>
      simp only [] at hr
      cases hrr : lexRun n .endS ((c.align).align) with
      | crash => rw [hrr] at hr; simp at hr
      | outOfFuel => rw [hrr] at hr; simp at hr
      | done ts1 =>
        rw [hrr] at hr
        simp at hr
        subst hr
        have hlen := hT.heof rfl
        have hio := hI.hio
        have htile := ih .endS ((c.align).align) ts1 hok.1
          ⟨by rw [align_content, align_content]; exact hT.hplain,
           by rw [align_content, align_content]; exact hT.htail,
           by simp, by intro hx; simp at hx, by intro hx; simp at hx,
           fun _ => by
             rw [align_content, align_content, align_index, align_offset]
             omega⟩ hrr
        rw [align_content, align_content, align_index, align_offset] at htile
        simp only [List.map_cons, List.flatten_cons]
        rw [htile]
        rw [List.drop_eq_nil_of_le hlen, List.drop_eq_nil_of_le (by omega)]
        rfl
    case endStop =>
      simp only [] at hr
      simp at hr
      subst hr
      rw [List.drop_eq_nil_of_le (hT.hend rfl)]
      rfl

/-! ## The tree-building parser's progress guard (spec §4.4) -/

/-- Modelled from the spec: the tree node kinds of the generic parse tree
(§3 Tree, "File, StmtVarDecl, TypeExpr, StmtExpr, ExprLiteral, ErrorTree");
the event-based tree parser itself is not present under `src/`. -/
inductive TreeKind where
  | file
  | stmtVarDecl
  | typeExpr
  | stmtExpr
  | exprLiteral
  | errorTree
deriving DecidableEq, Repr

/-- Modelled from the spec: `ParseEvent` — "one of Open {kind}, Close,
Advance" (§3). -/
inductive ParseEvent where
  | openEv (kind : TreeKind)
  | close
  | advance
deriving DecidableEq, Repr

/-- Modelled from the spec: the tree-building parser state (§4.4) — "the full
token sequence materialized as an indexed, read-only array; a read position
`pos`; a decrementing `fuel` counter; and an append-only `events` log", plus
a flag recording the fatal fuel-exhaustion stop. -/
structure TreeParser where
  tokens : List TokenKind
  pos : Nat
  fuel : Nat
  events : List ParseEvent
  fatal : Bool
deriving DecidableEq, Repr

/-- Modelled from the spec: the initial fuel budget that `advance` restores
("resets `fuel` to its initial budget", §4.4). -/
def initialFuel : Nat := 256

/-- Modelled from the spec: `nth(k)` — "returns the kind of the token `k`
positions ahead of `pos`, or end-of-file kind past the array end; decrements
`fuel`; if `fuel` reaches zero the parser treats this as a fatal
internal-invariant violation … and must stop the whole parse" (§4.4).
Exhausted fuel is modelled by the `fatal` flag. -/
def TreeParser.nth (p : TreeParser) (k : Nat) : TokenKind × TreeParser :=
  if p.fuel = 0 then (.tokenEOF, { p with fatal := true })
  else ((p.tokens[p.pos + k]?).getD .tokenEOF, { p with fuel := p.fuel - 1 })

/-- Modelled from the spec: `advance()` — "resets `fuel` to its initial
budget; appends an `Advance` event; increments `pos`" (§4.4). -/
def TreeParser.advance (p : TreeParser) : TreeParser :=
  { p with
    fuel := initialFuel
    events := p.events ++ [.advance]
    pos := p.pos + 1 }

/-- Repeated lookahead without any intervening advance. -/
def iterNth : Nat → TreeParser → TreeParser
  | 0, p => p
  | m + 1, p => iterNth m (p.nth 0).2

lemma nth_fatal_mono {p : TreeParser} {k : Nat} (h : p.fatal = true) :
    ((p.nth k).2).fatal = true := by
  unfold TreeParser.nth
  split_ifs <;> simp [h]

lemma iterNth_fatal_mono {p : TreeParser} (h : p.fatal = true) :
    ∀ m, (iterNth m p).fatal = true := by
  intro m
  induction m generalizing p with
  | zero => exact h
  | succ m ih => exact ih (nth_fatal_mono h)

/-- Lookahead alone starves: more consecutive `nth` calls than the remaining
fuel always end in the fatal stop. -/
theorem iterNth_starves :
    ∀ (m : Nat) (p : TreeParser), p.fuel < m → (iterNth m p).fatal = true := by
  intro m
  induction m with
  | zero => intro p h; omega
  | succ m ih =>
    intro p h
    show (iterNth m (p.nth 0).2).fatal = true
    by_cases hz : p.fuel = 0
    · have hfat : ((p.nth 0).2).fatal = true := by
        unfold TreeParser.nth
        rw [if_pos hz]
      exact iterNth_fatal_mono hfat _
    · have hfuel : ((p.nth 0).2).fuel = p.fuel - 1 := by
        unfold TreeParser.nth
        rw [if_neg hz]
      exact ih _ (by omega)

/-! ## Assembled end-to-end facts used by the claims -/

/-- The last token of a completed run. -/
def lastToken (r : RunResult) : Option Token :=
  match r with
  | .done ts => ts.getLast?
  | _ => none

/-- The kind and lexeme of the last token of a completed run. -/
def lastKindLexeme (r : RunResult) : Option (TokenKind × List Char) :=
  match lastToken r with
  | some t => some (t.kind, t.lexeme)
  | none => none

lemma asciiOk_mkCursor {cs : List Char} (h : AllAscii cs = true) :
    AsciiOk (mkCursor cs) := by
  intro ch hm
  have hx := List.all_eq_true.mp h ch hm
  simpa using hx

lemma lexListR_done_exists {cs : List Char} (h : AllAscii cs = true) :
    ∃ ts, lexListR cs = .done ts := by
  have hm : lexMeasure .start (mkCursor cs) < lexFuel cs := by
    rw [lexMeasure_init]
    unfold lexFuel
    omega
  unfold lexListR
  exact lexRun_ascii_done _ _ _ (lexInv_init cs) (asciiOk_mkCursor h) hm

lemma lexListR_last_eof {cs : List Char} (h : AllAscii cs = true) :
    (tokenKinds (lexListR cs)).isSome = true ∧
    lastKindLexeme (lexListR cs) = some (.tokenEOF, []) := by
  rcases lexListR_done_exists h with ⟨ts, hts⟩
  rcases lexRun_last_eof (lexFuel cs) .start (mkCursor cs) ts hts (by simp)
    with ⟨loc, hloc⟩
  constructor
  · rw [hts]
    simp [tokenKinds]
  · rw [hts]
    simp [lastKindLexeme, lastToken, hloc]

lemma plainInput_parts {cs : List Char} (h : PlainInput cs = true) :
    (∀ ch ∈ cs, plainChar ch = true) ∧ noGlueTail cs = true := by
  unfold PlainInput at h
  simp only [Bool.and_eq_true, List.all_eq_true] at h
  exact h

lemma allAscii_of_plain {cs : List Char} (h : ∀ ch ∈ cs, plainChar ch = true) :
    AllAscii cs = true := by
  unfold AllAscii
  rw [List.all_eq_true]
  intro ch hm
  simpa using plainChar_ascii (h ch hm)

lemma tileInv_init {cs : List Char} (hp : ∀ ch ∈ cs, plainChar ch = true)
    (ht : noGlueTail cs = true) : TileInv .start (mkCursor cs) :=
  ⟨hp, ht, by simp, by intro hx; simp at hx, by intro hx; simp at hx,
    by intro hx; simp at hx⟩

/-! ## The claims -/

/-- Claim C1, counterexample: on the input "a b" the concatenation of all
emitted lexemes is "ab", not the carriage-return-filtered input "a b" — the
space between the two identifiers is consumed without ever being emitted
(the whitespace emission in `StateStart::visit` is commented out), so the
round trip fails. -/
theorem claim1_counterexample :
    lexConcat (lexListR ['a', ' ', 'b']) ≠
      some (List.filter (fun ch => ch ≠ '\r') ['a', ' ', 'b']) := by
  decide

/-- Claim C1, amended: the round trip does hold on inputs made only of plain
characters — ASCII and none of space, tab, newline, carriage return or double
quote (all of which the lexer drops or rewrites) — that do not end in a
pending symbol continuation character (`-`, `=`, `+`, whose trailing run is
dropped at end of input): there the concatenation of all emitted lexemes, in
order, is exactly the input. -/
theorem claim1_round_trip (cs : List Char) (h : PlainInput cs = true) :
    lexConcat (lexListR cs) = some cs := by
  rcases plainInput_parts h with ⟨hp, ht⟩
  rcases lexListR_done_exists (allAscii_of_plain hp) with ⟨ts, hts⟩
  have htile := lexRun_tiles (lexFuel cs) .start (mkCursor cs) ts
    (lexInv_init cs) (tileInv_init hp ht) hts
  rw [hts]
  unfold lexConcat
  simp only []
  rw [htile]
  simp [mkCursor]

theorem claim1_round_trip_witness :
    lexConcat (lexListR ['x', '+', 'y']) = some ['x', '+', 'y'] :=
  claim1_round_trip ['x', '+', 'y'] (by decide)

/-- Claim C2, counterexample: lexing the one-character input " " yields only
the end-of-file token — no whitespace token is ever emitted, because the
`EmitToken` for space and tab in `StateStart::visit` is commented out and the
transition is a bare `Consume`. -/
theorem claim2_counterexample :
    tokenKinds (lexListR [' ']) = some [.tokenEOF] := by
  decide

/-- Claim C2, amended: in the Start state a pending space or tab makes the
lexer consume the character and stay in Start without emitting anything —
whitespace is silently skipped, not tokenized. -/
theorem claim2_ws_skipped (c : Cursor) (ch : Char) (hp : c.peek = some ch)
    (h1 : ch = ' ' ∨ ch = '\t') :
    lexStep .start c = .next .start c.consume := by
  simp +decide [lexStep, visit, visitStart, hp, h1]

theorem claim2_ws_skipped_witness :
    lexStep .start (mkCursor [' ']) = .next .start (mkCursor [' ']).consume :=
  claim2_ws_skipped (mkCursor [' ']) ' ' (by decide) (Or.inl rfl)

/-- Claim C3, counterexample: on the input "x y" the two identifier tokens sit
on the same line, yet the second one starts at column 2 while the first one
ends at column 1 — the skipped space leaves a gap, so `column_start` of the
successor does not equal `column_end` of the predecessor. -/
theorem claim3_counterexample :
    lexListR ['x', ' ', 'y'] = .done
      [⟨.tokenIdentifier, ['x'], ⟨0, 0, 1⟩⟩,
       ⟨.tokenIdentifier, ['y'], ⟨0, 2, 3⟩⟩,
       ⟨.tokenEOF, [], ⟨0, 3, 3⟩⟩] ∧
    (⟨0, 2, 3⟩ : TokenLocation).columnStart ≠
      (⟨0, 0, 1⟩ : TokenLocation).columnEnd := by
  decide

/-- Claim C3, amended: on ASCII inputs, consecutive tokens of a completed run
satisfy the weakened adjacency property — crossing a Newline token increments
the line by exactly one (and the columns restart at 0, as the successor's
`column_start` is at least the reset value), while otherwise the line is
unchanged and the successor starts at or after the predecessor's end column
(equality only when no whitespace or carriage return was skipped between
them). -/
theorem claim3_adjacency (cs : List Char) (ts : List Token)
    (h : AllAscii cs = true) (hr : lexListR cs = .done ts) :
    List.Chain' adjOK ts :=
  lexRun_chain (lexFuel cs) .start (mkCursor cs) ts (lexInv_init cs)
    (asciiOk_mkCursor h) hr

theorem claim3_adjacency_witness :
    List.Chain' adjOK
      [⟨.tokenIdentifier, ['a'], ⟨0, 0, 1⟩⟩,
       ⟨.tokenNewLine, ['\\', 'n'], ⟨0, 1, 1⟩⟩,
       ⟨.tokenIdentifier, ['b'], ⟨1, 0, 1⟩⟩,
       ⟨.tokenEOF, [], ⟨1, 1, 1⟩⟩] :=
  claim3_adjacency ['a', '\n', 'b']
    [⟨.tokenIdentifier, ['a'], ⟨0, 0, 1⟩⟩,
     ⟨.tokenNewLine, ['\\', 'n'], ⟨0, 1, 1⟩⟩,
     ⟨.tokenIdentifier, ['b'], ⟨1, 0, 1⟩⟩,
     ⟨.tokenEOF, [], ⟨1, 1, 1⟩⟩]
    (by decide) (by decide)

/-- Claim C4, counterexample: lexing "-\n" yields only a Newline token and the
end-of-file token — the pending "-" symbol is dropped, not emitted as its own
token, because the non-Assign branch of `StateSymbol::visit` on a newline
builds only the Newline token and discards the accumulated symbol text. -/
theorem claim4_counterexample :
    tokenKinds (lexListR ['-', '\n']) = some [.tokenNewLine, .tokenEOF] := by
  decide

/-- Claim C4, amended: when the Symbol state sees a newline, the accumulated
symbol text is emitted only when it classifies as Assign (`=`); for any other
classification the lexer emits a single Newline token with the literal
two-character lexeme "\\n" and the pending symbol text is dropped — the two
pieces never produce two separate tokens. -/
theorem claim4_symbol_newline (c : Cursor) (lexeme : List Char)
    (hp : c.peek = some '\n')
    (hsl : sliceBytes c.content c.index c.offset = some lexeme) :
    (tokenKindFrom lexeme = .tokenAssign →
      lexStep .symbol c =
        .emit ⟨tokenKindFrom lexeme, lexeme, c.location⟩ .start c.align) ∧
    (tokenKindFrom lexeme ≠ .tokenAssign →
      lexStep .symbol c =
        .emit ⟨.tokenNewLine, ['\\', 'n'], c.location⟩ .start
          ((c.newLine).align)) := by
  constructor
  · intro hk
    simp +decide [lexStep, visit, visitSymbol, hp, hsl, hk]
  · intro hk
    simp +decide [lexStep, visit, visitSymbol, hp, hsl, hk]

theorem claim4_symbol_newline_witness :
    lexStep .symbol (⟨['-', '\n'], ⟨0, 0, 1⟩, 0, 1⟩ : Cursor) =
      .emit ⟨.tokenNewLine, ['\\', 'n'], ⟨0, 0, 1⟩⟩ .start
        ((Cursor.newLine ⟨['-', '\n'], ⟨0, 0, 1⟩, 0, 1⟩).align) :=
  (claim4_symbol_newline ⟨['-', '\n'], ⟨0, 0, 1⟩, 0, 1⟩ ['-'] (by decide)
    (by decide)).2 (by decide)

/-- Claim C5, counterexample: the input "#!" contains '!', a character that is
neither whitespace, carriage return, quote, letter, underscore, digit, '#'
nor a symbol-table character, yet the run emits no Unknown token at all: the
'#' opens a comment that absorbs the '!' to end of input. The claim's
quantification over every input containing such a character is therefore
false — the Unknown emission happens only when the character is seen from the
Start state. -/
theorem claim5_counterexample :
    tokenKinds (lexListR ['#', '!']) = some [.tokenComment, .tokenEOF] := by
  decide

/-- Claim C5, amended: when the Start state sees a character that is not
space, tab, carriage return, double quote, letter, underscore, symbol-table
character, '#' or digit, it advances past it and emits an Unknown token
carrying exactly that character, returning to Start; and on any all-ASCII
input lexing still completes, with the end-of-file token (empty lexeme)
last. -/
theorem claim5_unknown_resilient :
    (∀ (c : Cursor) (ch : Char), c.peek = some ch →
      ¬(ch = ' ' ∨ ch = '\t') → ch ≠ '\r' → ch ≠ '"' →
      ¬(isAlphabetic ch = true ∨ ch = '_') → ¬isSymbolChar ch = true →
      ch ≠ '#' → ¬isAsciiDigit ch = true →
      lexStep .start c =
        .emit ⟨.tokenUnknown, [ch], (c.advanceOffset).location⟩ .start
          ((c.advanceOffset).align)) ∧
    (∀ cs : List Char, AllAscii cs = true →
      (tokenKinds (lexListR cs)).isSome = true ∧
      lastKindLexeme (lexListR cs) = some (.tokenEOF, [])) := by
  constructor
  · intro c ch hp h1 h2 h3 h4 h5 h6 h7
    simp +decide [lexStep, visit, visitStart, hp, h1, h2, h3, h4, h5, h6, h7]
  · intro cs h
    exact lexListR_last_eof h

theorem claim5_unknown_resilient_witness :
    (lexStep .start (mkCursor ['@', 'a']) =
      .emit ⟨.tokenUnknown, ['@'], ((mkCursor ['@', 'a']).advanceOffset).location⟩
        .start (((mkCursor ['@', 'a']).advanceOffset).align)) ∧
    (tokenKinds (lexListR ['@', 'a'])).isSome = true ∧
    lastKindLexeme (lexListR ['@', 'a']) = some (.tokenEOF, []) :=
  ⟨claim5_unknown_resilient.1 (mkCursor ['@', 'a']) '@' (by decide) (by decide)
      (by decide) (by decide) (by decide) (by decide) (by decide) (by decide),
    claim5_unknown_resilient.2 ['@', 'a'] (by decide)⟩

/-- Claim C6, counterexample: lexing the unterminated string input "\"ab"
yields only the end-of-file token — the pending characters are silently
discarded, no Unknown (or any best-effort) token is emitted for them, because
`StateString::visit` on end-of-input transitions straight to the EOF state
and its Unknown arm is unreachable. -/
theorem claim6_counterexample :
    tokenKinds (lexListR ['"', 'a', 'b']) = some [.tokenEOF] := by
  decide

/-- Claim C6, amended: when end-of-input is reached inside a string literal,
the String state consumes and transitions directly to the EOF state — it is
indeed not fatal, but it emits nothing and moves to EOF rather than emitting
a best-effort Unknown token and returning to Start. -/
theorem claim6_unterminated_string (c : Cursor) (hp : c.peek = none) :
    lexStep .strL c = .next .eofS c.consume := by
  simp +decide [lexStep, visit, visitString, hp]

theorem claim6_unterminated_string_witness :
    lexStep .strL (⟨['"', 'a'], ⟨0, 0, 2⟩, 0, 2⟩ : Cursor) =
      .next .eofS (Cursor.consume ⟨['"', 'a'], ⟨0, 0, 2⟩, 0, 2⟩) :=
  claim6_unterminated_string ⟨['"', 'a'], ⟨0, 0, 2⟩, 0, 2⟩ (by decide)

/-- Claim C7, counterexample: on the input "§ab" the lexer panics (the
Unknown-character branch slices the source at byte index 1, inside the
two-byte character '§'), so the run ends in a crash and the final token
yielded is not an end-of-file token — the claim fails for this finite
input. -/
theorem claim7_counterexample :
    lexListR ['§', 'a', 'b'] = .crash := by
  decide

/-- Claim C7, amended: the driver loop always terminates — no input exhausts
the step budget — and on every all-ASCII input (where no panic is possible)
the run completes with the end-of-file token, whose lexeme is empty, as its
last token. -/
theorem claim7_finite_eof :
    (∀ cs : List Char, lexListR cs ≠ .outOfFuel) ∧
    (∀ cs : List Char, AllAscii cs = true →
      (tokenKinds (lexListR cs)).isSome = true ∧
      lastKindLexeme (lexListR cs) = some (.tokenEOF, [])) := by
  constructor
  · intro cs
    have hm : lexMeasure .start (mkCursor cs) < lexFuel cs := by
      rw [lexMeasure_init]
      unfold lexFuel
      omega
    exact lexRun_not_outOfFuel _ _ _ (lexInv_init cs) hm
  · intro cs h
    exact lexListR_last_eof h

theorem claim7_finite_eof_witness :
    lexListR ['a'] ≠ .outOfFuel ∧
    (tokenKinds (lexListR ['a'])).isSome = true ∧
    lastKindLexeme (lexListR ['a']) = some (.tokenEOF, []) :=
  ⟨claim7_finite_eof.1 ['a'], claim7_finite_eof.2 ['a'] (by decide)⟩

/-- Claim C8, confirmed: lexeme classification is the stated total priority
cascade — after the three hard-coded single-character whitespace lexemes, an
exact keyword-table match wins, then an exact separator-table match, then the
numeric test, and everything else is an identifier; every all-digit lexeme is
the Int literal kind and every digit-headed numeric lexeme containing a
decimal point is the Float literal kind. -/
theorem claim8_classification :
    (∀ l : List Char, l.all isAsciiDigit = true →
      tokenKindFrom l = .tokenLiteral .int) ∧
    (∀ (d : Char) (rest : List Char), isAsciiDigit d = true →
      '.' ∈ d :: rest → tokenKindFrom (d :: rest) = .tokenLiteral .float) ∧
    (∀ l : List Char, l ≠ ['\n'] → l ≠ ['\t'] → l ≠ [' '] →
      (∀ k, matchKeyword l = some k → tokenKindFrom l = k) ∧
      (∀ k, matchKeyword l = none → matchSeparator l = some k →
        tokenKindFrom l = k) ∧
      (∀ k, matchKeyword l = none → matchSeparator l = none →
        matchNumber l = some k → tokenKindFrom l = k) ∧
      (matchKeyword l = none → matchSeparator l = none → matchNumber l = none →
        tokenKindFrom l = .tokenIdentifier)) :=
  ⟨tokenKindFrom_int, tokenKindFrom_float, tokenKindFrom_order⟩

theorem claim8_classification_witness :
    tokenKindFrom ['1', '2', '3'] = .tokenLiteral .int ∧
    tokenKindFrom ['1', '.', '5'] = .tokenLiteral .float ∧
    tokenKindFrom ['i', 'f'] = .tokenKeyword .ifKw ∧
    tokenKindFrom ['f', 'o', 'o'] = .tokenIdentifier :=
  ⟨claim8_classification.1 ['1', '2', '3'] (by decide),
   claim8_classification.2.1 '1' ['.', '5'] (by decide) (by decide),
   (claim8_classification.2.2 ['i', 'f'] (by decide) (by decide)
     (by decide)).1 (.tokenKeyword .ifKw) (by decide),
   (claim8_classification.2.2 ['f', 'o', 'o'] (by decide) (by decide)
     (by decide)).2.2.2 (by decide) (by decide) (by decide)⟩

/-- Claim C9, confirmed against the spec model (the event/fuel tree parser is
not present under `src/`): a lookahead query `nth` with fuel remaining
decrements the fuel by one without moving `pos` or touching the fatal flag,
`nth` with exhausted fuel sets the fatal stop, `advance` resets the fuel to
the initial budget, and more consecutive lookahead queries than the remaining
fuel always reach the fatal stop — no rule can loop forever on lookahead
alone. -/
theorem claim9_parser_fuel :
    (∀ (p : TreeParser) (k : Nat), p.fuel ≠ 0 →
      ((p.nth k).2).fuel = p.fuel - 1 ∧ ((p.nth k).2).pos = p.pos ∧
        ((p.nth k).2).fatal = p.fatal) ∧
    (∀ (p : TreeParser) (k : Nat), p.fuel = 0 → ((p.nth k).2).fatal = true) ∧
    (∀ p : TreeParser, (p.advance).fuel = initialFuel) ∧
    (∀ (m : Nat) (p : TreeParser), p.fuel < m → (iterNth m p).fatal = true) := by
  refine ⟨?_, ?_, fun _ => rfl, iterNth_starves⟩
  · intro p k h
    unfold TreeParser.nth
    rw [if_neg h]
    exact ⟨rfl, rfl, rfl⟩
  · intro p k h
    unfold TreeParser.nth
    rw [if_pos h]

theorem claim9_parser_fuel_witness :
    (((⟨[], 0, 2, [], false⟩ : TreeParser).nth 0).2.fuel = 2 - 1 ∧
      ((⟨[], 0, 2, [], false⟩ : TreeParser).nth 0).2.pos = 0 ∧
      ((⟨[], 0, 2, [], false⟩ : TreeParser).nth 0).2.fatal = false) ∧
    ((⟨[], 0, 0, [], false⟩ : TreeParser).nth 0).2.fatal = true ∧
    (iterNth 3 ⟨[], 0, 2, [], false⟩).fatal = true :=
  ⟨claim9_parser_fuel.1 ⟨[], 0, 2, [], false⟩ 0 (by decide),
   claim9_parser_fuel.2.1 ⟨[], 0, 0, [], false⟩ 0 rfl,
   claim9_parser_fuel.2.2.2 3 ⟨[], 0, 2, [], false⟩ (by decide)⟩

/-- Claim C10, confirmed: on every all-ASCII input (each character one UTF-8
byte, so the character-counted `index`/`offset` are valid byte indices) the
run completes without a panic, while the input "£ab" — a two-byte character
followed by text — makes the lexer slice the source inside the character
'£' and panic. -/
theorem claim10_ascii_safety :
    (∀ cs : List Char, AllAscii cs = true →
      (tokenKinds (lexListR cs)).isSome = true) ∧
    lexListR ['£', 'a', 'b'] = .crash := by
  constructor
  · intro cs h
    rcases lexListR_done_exists h with ⟨ts, hts⟩
    rw [hts]
    simp [tokenKinds]
  · decide

theorem claim10_ascii_safety_witness :
    (tokenKinds (lexListR ['b'])).isSome = true :=
  claim10_ascii_safety.1 ['b'] (by decide)
